import Mathlib

/-!
Verification development for the `auto_editor` segment decision engine.

All time values are modelled as exact rationals (`ℚ`); the Python source uses
IEEE floats, and every claim checked here concerns the branching structure and
interval bookkeeping of the code, which is float-representation independent.
External collaborators (ffmpeg, webrtcvad, cv2/mediapipe, difflib, whisper)
are modelled as explicit oracle parameters: a per-frame speech flag for the
voice classifier, a per-frame observation for the face/gaze pipeline, and a
similarity function standing for `difflib.SequenceMatcher(...).ratio()`.
Every control-flow decision made by the repository code itself is translated
directly from the source.
-/

/- The core `Rat` arithmetic operations are `@[irreducible]`, which blocks
`decide`-style evaluation in the elaborator (the kernel unfolds them anyway);
the claims are settled by evaluating the embedded code on concrete inputs, so
they are made semireducible for this file. -/
attribute [local semireducible] Rat.add Rat.sub Rat.mul Rat.inv

deriving instance DecidableEq for Except

namespace AutoEditor

/-- A transcript word record, `{"word": str, "start": float, "end": float}`
in the source (the `end` key is called `stop` here because `end` is a Lean
keyword). -/
structure PWord where
  word : String
  start : ℚ
  stop : ℚ
deriving DecidableEq, Repr, Inhabited

/-- Python `str.lower()` restricted to the ASCII range (all inputs used in the
claims are ASCII, where the two functions agree).  Strings are manipulated
through their character lists, which is the semantic content of a Python
string. -/
def pyLower (s : String) : String := ⟨s.data.map Char.toLower⟩

/-- Python `str.strip()`: drop leading and trailing whitespace. -/
def pyStrip (s : String) : String :=
  ⟨((s.data.dropWhile Char.isWhitespace).reverse.dropWhile Char.isWhitespace).reverse⟩

/-- Helper for `str.split()`: walk the characters accumulating the current
word (reversed); whitespace closes a word, empty pieces are not produced. -/
def splitWsAux : List Char → List Char → List String
  | [], acc => if acc.isEmpty then [] else [⟨acc.reverse⟩]
  | c :: cs, acc =>
    if c.isWhitespace then
      if acc.isEmpty then splitWsAux cs [] else ⟨acc.reverse⟩ :: splitWsAux cs []
    else splitWsAux cs (c :: acc)

/-- Python `str.split()` with no argument: split on whitespace runs and drop
empty pieces. -/
def pySplitWs (s : String) : List String := splitWsAux s.data []

/-- Python `str.startswith` for a single-character prefix. -/
def pyStartsWith (s : String) (c : Char) : Bool :=
  match s.data with
  | x :: _ => x == c
  | [] => false

/-- Python `sep.join(parts)`. -/
def pyJoin (sep : String) (parts : List String) : String :=
  ⟨List.intercalate sep.data (parts.map String.data)⟩

/-! ## modules/filler_filter.py -/

/-- Matcher for a regex of the shape `c1+ c2+ ... ck+`: every pattern character
must occur at least once, in order, covering the whole string.  Implements the
alternatives of `FILLER_REGEX` (each alternative is such a plus-sequence). -/
def matchPluses (pat : List Char) (cs : List Char) : Bool :=
  match cs, pat with
  | [], [] => true
  | [], _ :: _ => false
  | _ :: _, [] => false
  | c :: cs, p :: ps => c == p && (matchPluses ps cs || matchPluses (p :: ps) cs)

/-- `FILLER_REGEX = ^(e+u+h+|h+e+u+|h+u+m+|m+m+|h+m+|u+h+)$`, full-match test
(`re.match` with the anchored pattern). -/
def FILLER_REGEX_match (s : String) : Bool :=
  [['e', 'u', 'h'], ['h', 'e', 'u'], ['h', 'u', 'm'],
   ['m', 'm'], ['h', 'm'], ['u', 'h']].any
    (fun p => matchPluses p s.toList)

/-- `COMMON_REPEATABLE` word set from `filler_filter.py`. -/
def COMMON_REPEATABLE : List String :=
  ["je", "tu", "il", "elle", "on", "nous", "vous",
   "donc", "alors", "bah", "ben", "du", "de", "des"]

/-- Per-word rule loop of `detect_fillers` (rules A to D, first match wins,
emitting the raw cut list in word order).  `prev?` carries `words[i-1]`, and
`rest` is `words[i+1:]` so the rule D lookahead is its head. -/
def fillerCuts (max_filler_s max_noise_s repeat_window_s short_word_s : ℚ) :
    Option PWord → List PWord → List (ℚ × ℚ)
  | _, [] => []
  | prev?, w :: rest =>
    let text := pyStrip (pyLower w.word)
    let dur := w.stop - w.start
    let ruleC : Bool :=
      match prev? with
      | some prev =>
        decide (text = pyStrip (pyLower prev.word)) &&
        COMMON_REPEATABLE.contains text &&
        decide (w.start - prev.stop ≤ repeat_window_s)
      | none => false
    let ruleD : Bool :=
      match rest with
      | next :: _ => decide (next.start - w.stop > 1/4)
      | [] => false
    let this :=
      -- A) vocal fillers
      if dur ≤ max_filler_s ∧ FILLER_REGEX_match text then [(w.start, w.stop)]
      -- B) bracketed non-verbal noise
      else if pyStartsWith text '[' = true ∧ dur ≤ max_noise_s then [(w.start, w.stop)]
      -- C) immediate repetition of a repeatable word: cut the FIRST occurrence
      else if ruleC then
        (match prev? with
         | some prev => [(prev.start, prev.stop)]
         | none => [])
      -- D) very short word followed by a pause: abandoned false start
      else if dur ≤ short_word_s ∧ ruleD then [(w.start, w.stop)]
      else []
    this ++ fillerCuts max_filler_s max_noise_s repeat_window_s short_word_s (some w) rest

/-- The lexicographic tuple order used by Python `list.sort()` on
`(start, end)` pairs. -/
def pairLe (a b : ℚ × ℚ) : Prop :=
  a.1 < b.1 ∨ (a.1 = b.1 ∧ a.2 ≤ b.2)

instance : DecidableRel pairLe := fun a b => by
  unfold pairLe; infer_instance

/-- Python `list.sort()` / `sorted()` on `(start, end)` tuples.  Any stable
sorting algorithm computes the same list for a total preorder, so insertion
sort is an exact model of Timsort here. -/
def pySortPairs (l : List (ℚ × ℚ)) : List (ℚ × ℚ) :=
  List.insertionSort pairLe l

/-- Merge loop body of `merge_intervals`: the running last interval is `cur`;
a new interval is fused into it when its start is within `0.05` of the running
end. -/
def mergeLoopFF : (ℚ × ℚ) → List (ℚ × ℚ) → List (ℚ × ℚ)
  | cur, [] => [cur]
  | cur, (s, e) :: rest =>
    if s ≤ cur.2 + 1/20 then mergeLoopFF (cur.1, max cur.2 e) rest
    else cur :: mergeLoopFF (s, e) rest

/-- `merge_intervals` from `filler_filter.py`: sort, then fuse intervals whose
gap is at most `0.05` seconds. -/
def merge_intervals (intervals : List (ℚ × ℚ)) : List (ℚ × ℚ) :=
  match pySortPairs intervals with
  | [] => []
  | x :: rest => mergeLoopFF x rest

/-- `detect_fillers` from `filler_filter.py`: run the per-word rules, then
merge the resulting cut list. -/
def detect_fillers (words : List PWord)
    (max_filler_s max_noise_s repeat_window_s short_word_s : ℚ) : List (ℚ × ℚ) :=
  merge_intervals (fillerCuts max_filler_s max_noise_s repeat_window_s short_word_s none words)

/-! ## merge_close_segments from modules/gaze_filter.py -/

/-- Merge loop body of `merge_close_segments`: fuse when the gap
`s - previous_end` is at most `gap`. -/
def mergeCloseLoop (gap : ℚ) : (ℚ × ℚ) → List (ℚ × ℚ) → List (ℚ × ℚ)
  | cur, [] => [cur]
  | cur, (s, e) :: rest =>
    if s - cur.2 ≤ gap then mergeCloseLoop gap (cur.1, max cur.2 e) rest
    else cur :: mergeCloseLoop gap (s, e) rest

/-- `merge_close_segments` from `gaze_filter.py` (no sorting: the caller
supplies the segments in order). -/
def merge_close_segments (segs : List (ℚ × ℚ)) (gap : ℚ) : List (ℚ × ℚ) :=
  match segs with
  | [] => []
  | x :: rest => mergeCloseLoop gap x rest

/-! ## modules/audio_silence_cuts.py -/

/-- Silence preprocessing of `build_segments_from_silences`: fuse overlapping
or touching silences (`if s <= pe`). -/
def silenceMergeLoop : (ℚ × ℚ) → List (ℚ × ℚ) → List (ℚ × ℚ)
  | cur, [] => [cur]
  | cur, (s, e) :: rest =>
    if s ≤ cur.2 then silenceMergeLoop (cur.1, max cur.2 e) rest
    else cur :: silenceMergeLoop (s, e) rest

/-- Raw speech chunks: the complement of the merged silences inside
`[0, duration]`, built with the running cursor `cur`. -/
def speechLoop (duration : ℚ) : ℚ → List (ℚ × ℚ) → List (ℚ × ℚ)
  | cur, [] => if cur < duration then [(cur, duration)] else []
  | cur, (s, e) :: rest =>
    if s > cur then (cur, s) :: speechLoop duration (max cur e) rest
    else speechLoop duration (max cur e) rest

/-- Merge-or-split loop over consecutive speech chunks.  `seg_s`/`seg_e` is the
segment under construction, `a` the chunk to the left of the gap currently
examined, `rest` the chunks to its right. -/
def segLoop (cut_silence_over_s merge_gap_under_s pre_pad_s post_pad_s : ℚ)
    (seg_s seg_e : ℚ) : (ℚ × ℚ) → List (ℚ × ℚ) → List (ℚ × ℚ)
  | _, [] => [(seg_s, seg_e)]
  | a, b :: rest =>
    let gap_s := b.1 - a.2
    if gap_s < merge_gap_under_s then
      segLoop cut_silence_over_s merge_gap_under_s pre_pad_s post_pad_s seg_s b.2 b rest
    else if gap_s < cut_silence_over_s then
      segLoop cut_silence_over_s merge_gap_under_s pre_pad_s post_pad_s seg_s b.2 b rest
    else
      let cut_end := min (a.2 + post_pad_s) b.1
      let next_start := max (b.1 - pre_pad_s) a.2
      (seg_s, cut_end) ::
        segLoop cut_silence_over_s merge_gap_under_s pre_pad_s post_pad_s next_start b.2 b rest

/-- Clamp-and-cleanup pass: clamp into `[0, duration]`, drop empty or
too-short segments. -/
def cleanSegs (duration drop_segment_under_s min_segment_s : ℚ)
    (segs : List (ℚ × ℚ)) : List (ℚ × ℚ) :=
  segs.filterMap fun p =>
    let s := max 0 (min duration p.1)
    let e := max 0 (min duration p.2)
    if e ≤ s then none
    else if e - s < drop_segment_under_s then none
    else if e - s < min_segment_s then none
    else some (s, e)

/-- Final merge of `build_segments_from_silences` (fuse on overlap after
padding, over the sorted cleaned list). -/
def finalMergeLoop : (ℚ × ℚ) → List (ℚ × ℚ) → List (ℚ × ℚ)
  | cur, [] => [cur]
  | cur, (s, e) :: rest =>
    if s ≤ cur.2 then finalMergeLoop (cur.1, max cur.2 e) rest
    else cur :: finalMergeLoop (s, e) rest

/-- `build_segments_from_silences` from `audio_silence_cuts.py`. -/
def build_segments_from_silences (duration_s : ℚ) (silences : List (ℚ × ℚ))
    (cut_silence_over_s merge_gap_under_s pre_pad_s post_pad_s
     min_segment_s drop_segment_under_s : ℚ) : List (ℚ × ℚ) :=
  if duration_s ≤ 0 then []
  else
    let clamped := pySortPairs
      ((silences.filter (fun p => p.2 > p.1)).map
        (fun p => (max 0 p.1, min duration_s p.2)))
    let merged :=
      match clamped with
      | [] => []
      | x :: rest => silenceMergeLoop x rest
    let speech := speechLoop duration_s 0 merged
    match speech with
    | [] => []
    | a :: rest =>
      let segments :=
        segLoop cut_silence_over_s merge_gap_under_s pre_pad_s post_pad_s a.1 a.2 a rest
      let cleaned := cleanSegs duration_s drop_segment_under_s min_segment_s segments
      match pySortPairs cleaned with
      | [] => []
      | x :: rest => finalMergeLoop x rest

/-! ## modules/audio_vad.py -/

/-- The header data and PCM payload of a WAV file as surfaced by the Python
`wave` module. -/
structure WavFile where
  num_channels : ℕ
  sample_rate : ℕ
  sample_width : ℕ
  pcm : List ℕ
deriving DecidableEq, Repr

/-- `read_wav`: returns the PCM bytes and the sample rate, or raises
(`Except.error`) unless the file is mono, 16 kHz, 16-bit. -/
def read_wav (wf : WavFile) : Except String (List ℕ × ℕ) :=
  if wf.num_channels ≠ 1 ∨ wf.sample_rate ≠ 16000 ∨ wf.sample_width ≠ 2 then
    Except.error "WAV must be mono 16kHz 16-bit PCM"
  else Except.ok (wf.pcm, wf.sample_rate)

/-- State of the `vad_segments` trigger loop: the hysteresis flag, the ring
buffer of recent `(timestamp, is_speech)` frames, the pending segment start,
and the closed voiced segments. -/
structure VadState where
  triggered : Bool
  ring : List (ℚ × Bool)
  start_t : ℚ
  voiced : List (ℚ × ℚ)
deriving DecidableEq, Repr

/-- `collections.deque(maxlen := n)` append: add on the right, drop from the
left beyond capacity (a deque of capacity 0 stays empty). -/
def ringPush (n : ℕ) (r : List (ℚ × Bool)) (x : ℚ × Bool) : List (ℚ × Bool) :=
  let grown := r ++ [x]
  grown.drop (grown.length - n)

/-- One frame of the `vad_segments` loop.  `isSpeech` is the webrtcvad
classifier abstracted as an oracle over the frame index; frame `k` carries
timestamp `k * d`. -/
def vadStep (isSpeech : ℕ → Bool) (np : ℕ) (d : ℚ) (st : VadState) (k : ℕ) : VadState :=
  let t : ℚ := (k : ℚ) * d
  let s := isSpeech k
  if st.triggered = false then
    let ring := ringPush np st.ring (t, s)
    let num_voiced := (ring.filter (fun p => p.2)).length
    if (num_voiced : ℚ) > 9/10 * (np : ℚ) then
      { triggered := true, ring := [], start_t := (ring.headD (0, false)).1,
        voiced := st.voiced }
    else { st with ring := ring }
  else
    let ring := ringPush np st.ring (t, s)
    let num_unvoiced := (ring.filter (fun p => p.2 = false)).length
    if (num_unvoiced : ℚ) > 9/10 * (np : ℚ) then
      { triggered := false, ring := [], start_t := st.start_t,
        voiced := st.voiced ++ [(st.start_t, t + d)] }
    else { st with ring := ring }

/-- Post-processing merge of `vad_segments` (`if s - pe <= gap`). -/
def vadMergeLoop (gap : ℚ) : (ℚ × ℚ) → List (ℚ × ℚ) → List (ℚ × ℚ)
  | cur, [] => [cur]
  | cur, (s, e) :: rest =>
    if s - cur.2 ≤ gap then vadMergeLoop gap (cur.1, max cur.2 e) rest
    else cur :: vadMergeLoop gap (s, e) rest

/-- `vad_segments` from `audio_vad.py`.  The webrtcvad model is the
`isSpeech` oracle; the frame timestamps accumulate in exact arithmetic
(`timestamp += duration` in the source), so frame `k` sits at `k * d` with
`d = frame_ms / 1000` (with the 16 kHz rate enforced by `read_wav`,
`n = 32 * frame_ms` bytes and `(n/2)/16000 = frame_ms/1000` exactly). -/
def vad_segments (wf : WavFile) (isSpeech : ℕ → Bool)
    (frame_ms padding_ms min_segment_ms merge_gap_ms : ℕ) :
    Except String (List (ℚ × ℚ)) :=
  match read_wav wf with
  | Except.error e => Except.error e
  | Except.ok (pcm, sr) =>
    let n : ℕ := sr * frame_ms / 1000 * 2
    let d : ℚ := ((n : ℚ) / 2) / (sr : ℚ)
    let numFrames := pcm.length / n
    if numFrames = 0 then Except.ok []
    else
      let np := padding_ms / frame_ms
      let fin := (List.range numFrames).foldl (vadStep isSpeech np d)
        ⟨false, [], 0, []⟩
      let voiced :=
        if fin.triggered then
          fin.voiced ++ [(fin.start_t, ((numFrames - 1 : ℕ) : ℚ) * d + d)]
        else fin.voiced
      let min_len : ℚ := (min_segment_ms : ℚ) / 1000
      let gap : ℚ := (merge_gap_ms : ℚ) / 1000
      let kept := voiced.filter (fun p => p.2 - p.1 ≥ min_len)
      Except.ok
        (match kept with
         | [] => []
         | x :: rest => vadMergeLoop gap x rest)

/-! ## modules/gaze_filter.py

The per-frame computer-vision pipeline (frame decoding, face landmarks, the
EMA-smoothed 2D gaze window and the `atan2`-based reading test) is external
model inference plus transcendental float arithmetic; it is abstracted as an
oracle assigning one observation to each sampled frame of each segment.  The
interval bookkeeping of `refine_segments_by_gaze` is translated exactly. -/

/-- Outcome of one sampled frame: the video ran out (`cap.read` failed), no
face landmarks were detected, the landmark list was too short for iris points
(`_gaze_xy` returned `None`), or `_is_reading_2d` returned true/false. -/
inductive FrameObs
  | noFrame
  | noFace
  | noIris
  | reading
  | notReading
deriving DecidableEq, Repr

/-- The config fields of `GazeFilterConfig` that drive the interval
bookkeeping (the reading-detection thresholds are inside the oracle). -/
structure GazeCfg where
  sample_fps : ℚ
  max_invalid_gap_s : ℚ
  min_segment_duration_s : ℚ
  merge_gap_s : ℚ
deriving DecidableEq, Repr

/-- The sampling step in seconds: `step = max(int(fps / cfg.sample_fps), 1)`
frames, each of duration `1 / fps`. -/
def gazeDelta (fps : ℚ) (cfg : GazeCfg) : ℚ :=
  ((max (Int.toNat ⌊fps / cfg.sample_fps⌋) 1 : ℕ) : ℚ) / fps

/-- The while-loop of `refine_segments_by_gaze` for one segment.
State: frame counter `k`, clock `t` (checked against `seg_end` before each
frame, incremented by `δ` after a successful read), `act`/`lk` are
`active_start`/`last_keep_t` (`none` is Python `None`), `acc` the emitted
sub-intervals.  `fuel` bounds the recursion; with `δ > 0` and enough fuel the
fuel-out answer coincides with the loop-exit answer. -/
def gazeSegLoop (obs : ℕ → FrameObs) (cfg : GazeCfg) (δ seg_end : ℚ) :
    ℕ → ℕ → ℚ → Option ℚ → Option ℚ → List (ℚ × ℚ) →
    List (ℚ × ℚ) × Option ℚ × Option ℚ
  | 0, _, _, act, lk, acc => (acc, act, lk)
  | fuel + 1, k, t, act, lk, acc =>
    if t ≤ seg_end then
      match obs k with
      | FrameObs.noFrame => (acc, act, lk)
      | FrameObs.noFace =>
        let t := t + δ
        let act := if act.isNone then some t else act
        gazeSegLoop obs cfg δ seg_end fuel (k + 1) t act (some t) acc
      | FrameObs.noIris =>
        let t := t + δ
        gazeSegLoop obs cfg δ seg_end fuel (k + 1) t act (some t) acc
      | FrameObs.reading =>
        let t := t + δ
        (match act, lk with
         | some a, some l =>
           if a ≠ 0 ∧ l ≠ 0 ∧ t - l > cfg.max_invalid_gap_s then
             if l - a ≥ cfg.min_segment_duration_s then
               gazeSegLoop obs cfg δ seg_end fuel (k + 1) t none none (acc ++ [(a, l)])
             else
               gazeSegLoop obs cfg δ seg_end fuel (k + 1) t none none acc
           else gazeSegLoop obs cfg δ seg_end fuel (k + 1) t act lk acc
         | _, _ => gazeSegLoop obs cfg δ seg_end fuel (k + 1) t act lk acc)
      | FrameObs.notReading =>
        let t := t + δ
        let act := if act.isNone then some t else act
        gazeSegLoop obs cfg δ seg_end fuel (k + 1) t act (some t) acc
    else (acc, act, lk)

/-- Fuel sufficient for the loop over `[s, e]` with step `δ > 0`. -/
def gazeFuel (δ s e : ℚ) : ℕ := Int.toNat ⌈(e - s) / δ⌉ + 2

/-- One segment of `refine_segments_by_gaze`: run the loop from `seg.1`, then
the trailing emission (`if active_start and last_keep_t`, Python float
truthiness). -/
def gazeRunSeg (obs : ℕ → FrameObs) (cfg : GazeCfg) (δ : ℚ) (seg : ℚ × ℚ) :
    List (ℚ × ℚ) :=
  let r := gazeSegLoop obs cfg δ seg.2 (gazeFuel δ seg.1 seg.2) 0 seg.1 none none []
  match r.2.1, r.2.2 with
  | some a, some l =>
    if a ≠ 0 ∧ l ≠ 0 then
      if l - a ≥ cfg.min_segment_duration_s then r.1 ++ [(a, l)] else r.1
    else r.1
  | _, _ => r.1

/-- `refine_segments_by_gaze` from `gaze_filter.py`: per-segment loop over the
sampled frames (oracle `obs segIdx frameIdx`), then `merge_close_segments`. -/
def refine_segments_by_gaze (obs : ℕ → ℕ → FrameObs) (fps : ℚ)
    (segments : List (ℚ × ℚ)) (cfg : GazeCfg) : List (ℚ × ℚ) :=
  match segments with
  | [] => []
  | _ :: _ =>
    let δ := gazeDelta fps cfg
    let refined := (segments.enum.map (fun p => gazeRunSeg (obs p.1) cfg δ p.2)).flatten
    merge_close_segments refined cfg.merge_gap_s

/-! ## modules/audio_repetition_filter.py

`normalize_text` (lowercasing, `unicodedata` accent stripping, regex
punctuation and filler removal) and `similarity`
(`difflib.SequenceMatcher(None, a, b).ratio()`) depend on Python library
semantics external to the repository; they enter the embedding as the
parameters `normalize` and `sim`.  `token_set`, `is_trivial_segment` and the
whole decision chain of `detect_repetition_segments` are translated from the
source. -/

/-- `token_set`: the words of the text longer than 2 characters, as a set. -/
def token_set (text : String) : Finset String :=
  ((pySplitWs text).filter (fun t => t.length > 2)).toFinset

/-- `is_trivial_segment`: shorter than one second, or fewer than 4 words of
length above 2. -/
def is_trivial_segment (text : String) (dur_s : ℚ) : Prop :=
  dur_s < 1 ∨ ((pySplitWs text).filter (fun t => t.length > 2)).length < 4

instance (text : String) (dur_s : ℚ) : Decidable (is_trivial_segment text dur_s) := by
  unfold is_trivial_segment; infer_instance

/-- The containment fast path of `detect_repetition_segments`: segment `i` is
mostly included (token overlap at least 0.6) in segment `i+1` and is strictly
shorter.  The nested early-exit `if`s of the source flatten to this
conjunction because the inner blocks only drop-and-continue. -/
def containmentFires (norm_texts : List String) (segments : List (ℚ × ℚ)) (i : ℕ) : Prop :=
  i + 1 < norm_texts.length ∧
  token_set (norm_texts.getD i "") ≠ ∅ ∧
  token_set (norm_texts.getD (i + 1) "") ≠ ∅ ∧
  ((token_set (norm_texts.getD i "") ∩ token_set (norm_texts.getD (i + 1) "")).card : ℚ) /
      ((token_set (norm_texts.getD i "")).card : ℚ) ≥ 3/5 ∧
  (segments.getD i (0, 0)).2 - (segments.getD i (0, 0)).1 <
    (segments.getD (i + 1) (0, 0)).2 - (segments.getD (i + 1) (0, 0)).1

instance (nt : List String) (sg : List (ℚ × ℚ)) (i : ℕ) :
    Decidable (containmentFires nt sg i) := by
  unfold containmentFires; infer_instance

/-- The windowed-lookback loop: scan `j` over the previous `lookback` indices,
skip dropped or empty entries, and on the FIRST similarity hit drop the
shorter side (tie: drop the earlier), guarded by `min_keep_s`; then break. -/
def repLookback (norm_texts : List String) (segments : List (ℚ × ℚ))
    (sim : String → String → ℚ) (lookback : ℕ) (min_sim min_keep_s : ℚ)
    (i : ℕ) (drop : Finset ℕ) : Finset ℕ :=
  let js := List.range' (i - lookback) (min i lookback)
  match js.find? (fun j =>
      decide (j ∉ drop) && decide (norm_texts.getD j "" ≠ "") &&
      decide (sim (norm_texts.getD i "") (norm_texts.getD j "") ≥ min_sim)) with
  | none => drop
  | some j =>
    let dur_i := (segments.getD i (0, 0)).2 - (segments.getD i (0, 0)).1
    let dur_j := (segments.getD j (0, 0)).2 - (segments.getD j (0, 0)).1
    if dur_i < dur_j then
      if dur_j ≥ min_keep_s then insert i drop else drop
    else if dur_j < dur_i then
      if dur_i ≥ min_keep_s then insert j drop else drop
    else
      if dur_i ≥ min_keep_s then insert j drop else drop

/-- One iteration of the `for i in range(n)` loop of
`detect_repetition_segments`. -/
def repStep (norm_texts : List String) (segments : List (ℚ × ℚ))
    (sim : String → String → ℚ) (lookback : ℕ) (min_sim min_keep_s : ℚ)
    (drop : Finset ℕ) (i : ℕ) : Finset ℕ :=
  if containmentFires norm_texts segments i then insert i drop
  else if i ∈ drop then drop
  else if norm_texts.getD i "" = "" then drop
  else if 0 < i ∧ sim (norm_texts.getD i "") (norm_texts.getD (i - 1) "") ≥ min_sim then
    -- consecutive repetition: fall through to the lookback decision
    repLookback norm_texts segments sim lookback min_sim min_keep_s i drop
  else if 2 ≤ i ∧ sim (norm_texts.getD i "") (norm_texts.getD (i - 2) "") ≥ min_sim then
    -- A -> B -> A' pattern
    if is_trivial_segment (norm_texts.getD (i - 1) "")
        ((segments.getD (i - 1) (0, 0)).2 - (segments.getD (i - 1) (0, 0)).1) then
      insert i drop
    else drop
  else
    repLookback norm_texts segments sim lookback min_sim min_keep_s i drop

/-- `detect_repetition_segments` from `audio_repetition_filter.py`:
the set of indices to DROP. -/
def detect_repetition_segments (normalize : String → String)
    (sim : String → String → ℚ) (segments : List (ℚ × ℚ)) (texts : List String)
    (lookback : ℕ) (min_sim min_keep_s : ℚ) : Finset ℕ :=
  let norm_texts := texts.map normalize
  (List.range norm_texts.length).foldl
    (repStep norm_texts segments sim lookback min_sim min_keep_s) ∅

/-- Keep-filter of `apply_repetition_filter` over the enumerated zip. -/
def applyKeep (drop : Finset ℕ) : ℕ → List ((ℚ × ℚ) × String) → List ((ℚ × ℚ) × String)
  | _, [] => []
  | idx, p :: rest =>
    if idx ∈ drop then applyKeep drop (idx + 1) rest
    else p :: applyKeep drop (idx + 1) rest

/-- `apply_repetition_filter`: run detection and return the kept segments and
kept texts, in order. -/
def apply_repetition_filter (normalize : String → String)
    (sim : String → String → ℚ) (segments : List (ℚ × ℚ)) (texts : List String)
    (lookback : ℕ) (min_sim min_keep_s : ℚ) : List (ℚ × ℚ) × List String :=
  let drop := detect_repetition_segments normalize sim segments texts lookback min_sim min_keep_s
  let kept := applyKeep drop 0 (segments.zip texts)
  (kept.map Prod.fst, kept.map Prod.snd)

/-! ## modules/restart_filter.py -/

/-- `" ".join(w["word"].lower() for w in words[i:i+k])`. -/
def windowText (words : List PWord) (i k : ℕ) : String :=
  pyJoin " " (((words.drop i).take k).map (fun w => pyLower w.word))

/-- Inner look-ahead of `detect_restarts`: scan forward windows `j`; stop at
the first gap beyond `max_gap_s`, answer the first similarity hit. -/
def restartScan (sim : String → String → ℚ) (words : List PWord) (minw : ℕ)
    (sim_threshold max_gap_s a_end : ℚ) (a_text : String) : List ℕ → Option ℕ
  | [] => none
  | j :: rest =>
    if (words.getD j default).start - a_end > max_gap_s then none
    else if sim a_text (windowText words j minw) ≥ sim_threshold then some j
    else restartScan sim words minw sim_threshold max_gap_s a_end a_text rest

/-- Outer while-loop of `detect_restarts`; on a hit at `j`, cut from window
`i` start to window `j` start and resume from `j + 1`.  `fuel` bounds the
loop (the index strictly increases, so `words.length + 1` suffices). -/
def restartLoop (sim : String → String → ℚ) (words : List PWord) (minw : ℕ)
    (sim_threshold max_gap_s : ℚ) : ℕ → ℕ → List (ℚ × ℚ) → List (ℚ × ℚ)
  | 0, _, acc => acc
  | fuel + 1, i, acc =>
    if i < words.length - minw then
      let a_text := windowText words i minw
      let a_end := (words.getD (i + minw - 1) default).stop
      let js := List.range' (i + minw) ((words.length - minw) - (i + minw))
      match restartScan sim words minw sim_threshold max_gap_s a_end a_text js with
      | some j =>
        restartLoop sim words minw sim_threshold max_gap_s fuel (j + 1)
          (acc ++ [((words.getD i default).start, (words.getD j default).start)])
      | none => restartLoop sim words minw sim_threshold max_gap_s fuel (i + 1) acc
    else acc

/-- `detect_restarts` from `restart_filter.py` (`sim` stands for the difflib
ratio, as in the repetition filter). -/
def detect_restarts (sim : String → String → ℚ) (words : List PWord)
    (min_words : ℕ) (sim_threshold max_gap_s : ℚ) : List (ℚ × ℚ) :=
  restartLoop sim words min_words sim_threshold max_gap_s (words.length + 1) 0 []

/-! ## modules/repetition_word_filter.py -/

/-- A Whisper transcript segment record with the fields the repository uses:
`start`, `end` (called `stop` here), `text` and `words`. -/
structure Segment where
  start : ℚ
  stop : ℚ
  text : String
  words : List PWord
deriving DecidableEq, Repr

/-- The `cut_idx` scan of `trim_leading_word_repetition`: walk `i` from 1
up to `min(len(words), max_words) - 1`, recording the last consecutive index
whose lowercased word equals the first word and whose gap from the first word
end is within `max_gap_s`; stop at the first mismatch. -/
def trimScan (words : List PWord) (base : String) (w0stop max_gap_s : ℚ)
    (bound : ℕ) : ℕ → ℕ → Option ℕ → Option ℕ
  | 0, _, acc => acc
  | fuel + 1, i, acc =>
    if i < bound then
      let w := words.getD i default
      if pyLower w.word = base ∧ w.start - w0stop ≤ max_gap_s then
        trimScan words base w0stop max_gap_s bound fuel (i + 1) (some i)
      else acc
    else acc

/-- `trim_leading_word_repetition` from `repetition_word_filter.py`.  The
source mutates `stt["segments"]` in place; the embedding returns the list of
segments after the call (`if cut_idx:` is Python integer truthiness). -/
def trim_leading_word_repetition (stt : List Segment) (max_words : ℕ)
    (max_gap_s : ℚ) : List Segment :=
  stt.map fun seg =>
    if seg.words.length < 2 then seg
    else
      let w0 := seg.words.getD 0 default
      let base := pyLower w0.word
      let bound := min seg.words.length max_words
      match trimScan seg.words base w0.stop max_gap_s bound bound 1 none with
      | none => seg
      | some cut_idx =>
        if cut_idx = 0 then seg
        else
          let ws := seg.words.drop cut_idx
          { seg with
            words := ws
            start := (ws.getD 0 default).start
            text := pyJoin " " (ws.map (fun w => w.word)) }

/-! ## Time-union membership, and concrete fixtures used by the theorems -/

/-- `x` lies in the union of the closed intervals of `l`. -/
def inUnion (x : ℚ) (l : List (ℚ × ℚ)) : Prop :=
  ∃ p ∈ l, p.1 ≤ x ∧ x ≤ p.2

instance (x : ℚ) (l : List (ℚ × ℚ)) : Decidable (inUnion x l) := by
  unfold inUnion; infer_instance

/-- A concrete similarity function usable wherever only reflexivity-at-1 and
dissimilarity of distinct strings matter (`difflib` ratio is `1` on equal
nonempty strings and far below the thresholds on the unrelated strings used
in the fixtures below). -/
def simEq : String → String → ℚ := fun a b => if a = b then 1 else 0

/-- The word list of the spec example, `["I","I","went","went","there"]`,
with sub-threshold pauses (every inter-word gap is 0.1 s). -/
def englishWords : List PWord :=
  [⟨"I", 0, 1/5⟩, ⟨"I", 3/10, 1/2⟩, ⟨"went", 3/5, 4/5⟩,
   ⟨"went", 9/10, 11/10⟩, ⟨"there", 6/5, 8/5⟩]

/-- The same rhythm with words from the `COMMON_REPEATABLE` set. -/
def frenchWords : List PWord :=
  [⟨"je", 0, 1/5⟩, ⟨"je", 3/10, 1/2⟩, ⟨"donc", 3/5, 4/5⟩,
   ⟨"donc", 9/10, 11/10⟩, ⟨"la", 6/5, 8/5⟩]

/-- The default `GazeFilterConfig` bookkeeping fields:
`sample_fps = 10`, `max_invalid_gap_s = 0.40`,
`min_segment_duration_s = 0.45`, `merge_gap_s = 0.35`. -/
def gazeCfgDefault : GazeCfg := ⟨10, 2/5, 9/20, 7/20⟩

/-- A transcript segment starting with a repeated word
(`"je je vais"`). -/
def segJeJeVais : Segment :=
  ⟨0, 1, "je je vais", [⟨"je", 0, 1/5⟩, ⟨"je", 3/10, 1/2⟩, ⟨"vais", 3/5, 1⟩]⟩

/-! # Theorems -/

/-! ## Order facts about the tuple sort -/

instance : IsTrans (ℚ × ℚ) pairLe where
  trans := by
    rintro a b c (h1 | ⟨h1, h1'⟩) (h2 | ⟨h2, h2'⟩)
    · exact Or.inl (lt_trans h1 h2)
    · exact Or.inl (h2 ▸ h1)
    · exact Or.inl (h1 ▸ h2)
    · exact Or.inr ⟨h1.trans h2, h1'.trans h2'⟩

instance : IsTotal (ℚ × ℚ) pairLe where
  total := by
    intro a b
    rcases lt_trichotomy a.1 b.1 with h | h | h
    · exact Or.inl (Or.inl h)
    · rcases le_total a.2 b.2 with h2 | h2
      · exact Or.inl (Or.inr ⟨h, h2⟩)
      · exact Or.inr (Or.inr ⟨h.symm, h2⟩)
    · exact Or.inr (Or.inl h)

theorem pairLe_fst {a b : ℚ × ℚ} (h : pairLe a b) : a.1 ≤ b.1 := by
  rcases h with h | ⟨h, _⟩
  · exact le_of_lt h
  · exact le_of_eq h

/-- A nondegenerate list whose consecutive gaps exceed `0.05` is sorted in the
Python tuple order. -/
theorem sorted_of_chainGap : ∀ {l : List (ℚ × ℚ)},
    (∀ p ∈ l, p.1 < p.2) →
    l.Chain' (fun p q => q.1 - p.2 > 1/20) → List.Sorted pairLe l
  | [], _, _ => List.sorted_nil
  | [a], _, _ => List.sorted_singleton a
  | a :: b :: t, h1, h2 => by
    rw [List.chain'_cons] at h2
    have ih := sorted_of_chainGap (fun p hp => h1 p (List.mem_cons_of_mem a hp)) h2.2
    rw [List.sorted_cons]
    refine ⟨?_, ih⟩
    intro x hx
    have ha : a.1 < a.2 := h1 a (List.mem_cons_self a _)
    have hab : a.2 < b.1 := by have := h2.1; linarith
    rcases List.mem_cons.mp hx with rfl | hxt
    · exact Or.inl (lt_trans ha hab)
    · have hbx : b.1 ≤ x.1 := pairLe_fst (List.rel_of_sorted_cons ih x hxt)
      exact Or.inl (lt_of_lt_of_le (lt_trans ha hab) hbx)

/-- Over a chain with all gaps above the merge threshold, the
`merge_intervals` loop is the identity. -/
theorem mergeLoopFF_eq_self : ∀ (cur : ℚ × ℚ) (rest : List (ℚ × ℚ)),
    List.Chain' (fun p q => q.1 - p.2 > 1/20) (cur :: rest) →
    mergeLoopFF cur rest = cur :: rest
  | _, [], _ => rfl
  | cur, (s, e) :: rest, h => by
    rw [List.chain'_cons] at h
    have hgap : ¬ s ≤ cur.2 + 1/20 := by have := h.1; intro hc; simp at this; linarith
    unfold mergeLoopFF
    rw [if_neg hgap, mergeLoopFF_eq_self (s, e) rest h.2]

/-- Over a chain with all gaps above `gap`, the `merge_close_segments` loop is
the identity. -/
theorem mergeCloseLoop_eq_self (gap : ℚ) : ∀ (cur : ℚ × ℚ) (rest : List (ℚ × ℚ)),
    List.Chain' (fun p q => q.1 - p.2 > gap) (cur :: rest) →
    mergeCloseLoop gap cur rest = cur :: rest
  | _, [], _ => rfl
  | cur, (s, e) :: rest, h => by
    rw [List.chain'_cons] at h
    have hgap : ¬ s - cur.2 ≤ gap := by have := h.1; intro hc; simp at this; linarith
    unfold mergeCloseLoop
    rw [if_neg hgap, mergeCloseLoop_eq_self gap (s, e) rest h.2]

/-- C2: an interval list that is nondegenerate, sorted, and whose pairwise
gaps strictly exceed both merge thresholds (`0.05` s for `merge_intervals`
from the filler filter, `gap` for `merge_close_segments` from the gaze
filter) is returned unchanged by both merge primitives. -/
theorem merge_idempotent (l : List (ℚ × ℚ)) (gap : ℚ)
    (h1 : ∀ p ∈ l, p.1 < p.2)
    (h2 : l.Chain' (fun p q => q.1 - p.2 > 1/20))
    (h3 : l.Chain' (fun p q => q.1 - p.2 > gap)) :
    merge_intervals l = l ∧ merge_close_segments l gap = l := by
  constructor
  · unfold merge_intervals pySortPairs
    rw [List.Sorted.insertionSort_eq (sorted_of_chainGap h1 h2)]
    cases l with
    | nil => rfl
    | cons a t => exact mergeLoopFF_eq_self a t h2
  · unfold merge_close_segments
    cases l with
    | nil => rfl
    | cons a t => exact mergeCloseLoop_eq_self gap a t h3

/-- C2 witness: a concrete already-composed list is a fixed point of both
merge primitives. -/
theorem merge_idempotent_witness :
    merge_intervals [(0, 1), (2, 3)] = [(0, 1), (2, 3)] ∧
    merge_close_segments [(0, 1), (2, 3)] (1/2) = [(0, 1), (2, 3)] :=
  merge_idempotent [(0, 1), (2, 3)] (1/2) (by decide)
    (by rw [List.chain'_cons]; exact ⟨by norm_num, List.chain'_singleton _⟩)
    (by rw [List.chain'_cons]; exact ⟨by norm_num, List.chain'_singleton _⟩)

/-! ## Structure of the merge_intervals output (C10) -/

/-- The merge loop keeps the start of the running interval as the head
start. -/
theorem mergeLoopFF_head : ∀ (cur : ℚ × ℚ) (rest : List (ℚ × ℚ)),
    ∃ y t, mergeLoopFF cur rest = (cur.1, y) :: t
  | cur, [] => ⟨cur.2, [], rfl⟩
  | cur, (s, e) :: rest => by
    unfold mergeLoopFF
    by_cases h : s ≤ cur.2 + 1/20
    · rw [if_pos h]
      exact mergeLoopFF_head (cur.1, max cur.2 e) rest
    · rw [if_neg h]
      exact ⟨cur.2, mergeLoopFF (s, e) rest, rfl⟩

/-- Consecutive intervals produced by the merge loop are separated by strictly
more than `0.05` seconds, for every input. -/
theorem mergeLoopFF_chainGap : ∀ (cur : ℚ × ℚ) (rest : List (ℚ × ℚ)),
    (mergeLoopFF cur rest).Chain' (fun p q => q.1 - p.2 > 1/20)
  | _, [] => List.chain'_singleton _
  | cur, (s, e) :: rest => by
    unfold mergeLoopFF
    by_cases h : s ≤ cur.2 + 1/20
    · rw [if_pos h]
      exact mergeLoopFF_chainGap (cur.1, max cur.2 e) rest
    · rw [if_neg h]
      obtain ⟨y, t, ht⟩ := mergeLoopFF_head (s, e) rest
      rw [ht]
      rw [List.chain'_cons]
      refine ⟨by simp; linarith [not_le.mp h], ?_⟩
      rw [← ht]
      exact mergeLoopFF_chainGap (s, e) rest

/-- The merge loop preserves the property that starts are nondecreasing. -/
theorem mergeLoopFF_starts : ∀ (cur : ℚ × ℚ) (rest : List (ℚ × ℚ)),
    (cur :: rest).Chain' (fun p q => p.1 ≤ q.1) →
    (mergeLoopFF cur rest).Chain' (fun p q => p.1 ≤ q.1)
  | _, [], _ => List.chain'_singleton _
  | cur, (s, e) :: rest, h => by
    rw [List.chain'_cons] at h
    unfold mergeLoopFF
    by_cases hm : s ≤ cur.2 + 1/20
    · rw [if_pos hm]
      refine mergeLoopFF_starts (cur.1, max cur.2 e) rest ?_
      cases rest with
      | nil => exact List.chain'_singleton _
      | cons b t =>
        rw [List.chain'_cons] at h ⊢
        exact ⟨le_trans h.1 h.2.1, h.2.2⟩
    · rw [if_neg hm]
      obtain ⟨y, t, ht⟩ := mergeLoopFF_head (s, e) rest
      rw [ht, List.chain'_cons]
      refine ⟨h.1, ?_⟩
      rw [← ht]
      exact mergeLoopFF_starts (s, e) rest h.2

/-- Combining the two chain facts into a pairwise separation fact. -/
theorem pairwise_of_chains : ∀ {o : List (ℚ × ℚ)},
    o.Chain' (fun p q => q.1 - p.2 > 1/20) →
    o.Chain' (fun p q => p.1 ≤ q.1) →
    o.Pairwise (fun p q => p.2 + 1/20 < q.1 ∧ p.1 ≤ q.1)
  | [], _, _ => List.Pairwise.nil
  | [_], _, _ => List.pairwise_singleton _ _
  | a :: b :: t, hg, hs => by
    rw [List.chain'_cons] at hg hs
    have ih := pairwise_of_chains hg.2 hs.2
    rw [List.pairwise_cons]
    refine ⟨?_, ih⟩
    intro x hx
    rcases List.mem_cons.mp hx with rfl | hxt
    · exact ⟨by linarith [hg.1], hs.1⟩
    · have hbx := (List.pairwise_cons.mp ih).1 x hxt
      exact ⟨by linarith [hg.1, hbx.2], le_trans hs.1 hbx.2⟩

/-- C10: for every word list and parameters, the cut list of `detect_fillers`
has nondecreasing starts, strictly more than `0.05` seconds between
consecutive cuts (closer cuts are fused by `merge_intervals`), and its
intervals are pairwise point-disjoint. -/
theorem filler_cuts_invariant (words : List PWord) (p1 p2 p3 p4 : ℚ) :
    (detect_fillers words p1 p2 p3 p4).Chain' (fun p q => q.1 - p.2 > 1/20) ∧
    (detect_fillers words p1 p2 p3 p4).Pairwise (fun p q => p.1 ≤ q.1) ∧
    (detect_fillers words p1 p2 p3 p4).Pairwise
      (fun p q => ∀ x : ℚ, ¬(p.1 ≤ x ∧ x ≤ p.2 ∧ q.1 ≤ x ∧ x ≤ q.2)) := by
  unfold detect_fillers merge_intervals
  rcases h : pySortPairs (fillerCuts p1 p2 p3 p4 none words) with _ | ⟨a, rest⟩
  · exact ⟨List.chain'_nil, List.Pairwise.nil, List.Pairwise.nil⟩
  · have hsorted : List.Sorted pairLe (a :: rest) := by
      rw [← h]; exact List.sorted_insertionSort pairLe _
    have hstarts : (a :: rest).Chain' (fun p q : ℚ × ℚ => p.1 ≤ q.1) :=
      (hsorted.imp (fun hpq => pairLe_fst hpq)).chain'
    have c1 := mergeLoopFF_chainGap a rest
    have c2 := mergeLoopFF_starts a rest hstarts
    haveI : IsTrans (ℚ × ℚ) (fun p q => p.1 ≤ q.1) :=
      ⟨fun _ _ _ h1 h2 => le_trans h1 h2⟩
    refine ⟨c1, List.chain'_iff_pairwise.mp c2, ?_⟩
    refine (pairwise_of_chains c1 c2).imp ?_
    intro p q hpq x hx
    obtain ⟨h1, h2, h3, h4⟩ := hx
    linarith [hpq.1]

/-! ## Read-only behavior of the transcript stages (C9) -/

/-- The keep-filter of `apply_repetition_filter` only selects input pairs. -/
theorem applyKeep_sublist (drop : Finset ℕ) :
    ∀ (i : ℕ) (l : List ((ℚ × ℚ) × String)), (applyKeep drop i l).Sublist l
  | _, [] => List.Sublist.refl []
  | i, p :: rest => by
    unfold applyKeep
    by_cases h : i ∈ drop
    · rw [if_pos h]
      exact (applyKeep_sublist drop (i + 1) rest).cons p
    · rw [if_neg h]
      exact (applyKeep_sublist drop (i + 1) rest).cons₂ p

/-- C9 counterexample: `trim_leading_word_repetition` rewrites the `words`,
`start` and `text` fields of a segment that begins with a repeated word
(`"je je vais"` becomes `"je vais"` with start `0.3`), so the transcript
record does change across the call. -/
theorem transcript_readonly_counterexample :
    trim_leading_word_repetition [segJeJeVais] 5 1 =
      [⟨3/10, 1, "je vais", [⟨"je", 3/10, 1/2⟩, ⟨"vais", 3/5, 1⟩]⟩] ∧
    trim_leading_word_repetition [segJeJeVais] 5 1 ≠ [segJeJeVais] :=
  ⟨by decide, by decide⟩

/-- C9 amended: `apply_repetition_filter` is read-only — its outputs are
sublists of the input segments and texts, whose elements are the unchanged
input records; `trim_leading_word_repetition`, by contrast, rewrites in place
every segment with a detected leading repetition, and leaves a segment
unchanged exactly when it has fewer than two words or its `cut_idx` scan
finds no repetition. -/
theorem transcript_readonly_amended :
    (∀ (normalize : String → String) (sim : String → String → ℚ)
       (segments : List (ℚ × ℚ)) (texts : List String) (lookback : ℕ)
       (min_sim min_keep_s : ℚ),
       segments.length = texts.length →
       ((apply_repetition_filter normalize sim segments texts lookback
           min_sim min_keep_s).1.Sublist segments ∧
        (apply_repetition_filter normalize sim segments texts lookback
           min_sim min_keep_s).2.Sublist texts)) ∧
    (∀ (stt : List Segment) (max_words : ℕ) (max_gap_s : ℚ),
       (∀ seg ∈ stt, seg.words.length < 2 ∨
         trimScan seg.words (pyLower (seg.words.getD 0 default).word)
           (seg.words.getD 0 default).stop max_gap_s
           (min seg.words.length max_words) (min seg.words.length max_words)
           1 none = none) →
       trim_leading_word_repetition stt max_words max_gap_s = stt) := by
  constructor
  · intro normalize sim segments texts lookback min_sim min_keep_s hlen
    unfold apply_repetition_filter
    constructor
    · have h1 := (applyKeep_sublist
        (detect_repetition_segments normalize sim segments texts lookback min_sim min_keep_s)
        0 (segments.zip texts)).map Prod.fst
      rwa [List.map_fst_zip segments texts (le_of_eq hlen)] at h1
    · have h2 := (applyKeep_sublist
        (detect_repetition_segments normalize sim segments texts lookback min_sim min_keep_s)
        0 (segments.zip texts)).map Prod.snd
      rwa [List.map_snd_zip segments texts (ge_of_eq hlen)] at h2
  · intro stt max_words max_gap_s h
    unfold trim_leading_word_repetition
    have : ∀ seg ∈ stt,
        (fun seg : Segment =>
          if seg.words.length < 2 then seg
          else
            let w0 := seg.words.getD 0 default
            let base := pyLower w0.word
            let bound := min seg.words.length max_words
            match trimScan seg.words base w0.stop max_gap_s bound bound 1 none with
            | none => seg
            | some cut_idx =>
              if cut_idx = 0 then seg
              else
                let ws := seg.words.drop cut_idx
                { seg with
                  words := ws
                  start := (ws.getD 0 default).start
                  text := pyJoin " " (ws.map (fun w => w.word)) }) seg = seg := by
      intro seg hseg
      rcases h seg hseg with hlt | hnone
      · simp only [if_pos hlt]
      · by_cases hlen2 : seg.words.length < 2
        · simp only [if_pos hlen2]
        · simp only [if_neg hlen2, hnone]
    rw [List.map_congr_left this, List.map_id']

/-- C9 witness: a one-word segment passes through the trim unchanged, and the
kept segments of a concrete `apply_repetition_filter` call form a sublist of
the input. -/
theorem transcript_readonly_amended_witness :
    trim_leading_word_repetition [⟨0, 1, "x", [⟨"x", 0, 1⟩]⟩] 5 1 =
      [⟨0, 1, "x", [⟨"x", 0, 1⟩]⟩] ∧
    (apply_repetition_filter id simEq [(0, 1)] ["abc"] 3 (78/100)
        (45/100)).1.Sublist [(0, 1)] :=
  ⟨transcript_readonly_amended.2 [⟨0, 1, "x", [⟨"x", 0, 1⟩]⟩] 5 1 (by decide),
   (transcript_readonly_amended.1 id simEq [(0, 1)] ["abc"] 3 (78/100) (45/100) rfl).1⟩

/-! ## The ["I","I","went","went","there"] example (C6) -/

/-- C6 counterexample: on the spec example words `["I","I","went","went",
"there"]` (each repeated word 0.1 s after its twin, inside the 0.5 s repeat
window), the immediate-repeat filler rule does NOT cut the earlier `"I"` and
`"went"`: those words are not members of the closed French
`COMMON_REPEATABLE` set, so `detect_fillers` returns no cut at all and all
five words are kept, not `"I went there"`. -/
theorem filler_restart_example_counterexample :
    detect_fillers englishWords (6/10) (9/10) (1/2) (35/100) = [] := by
  decide

/-- C6 amended: on `["I","I","went","went","there"]` with window size 2, the
restart rule indeed emits no cut (the one compared window pair is
`"i i"` versus `"went went"`, whose similarity is below the 0.9 threshold —
difflib gives about 0.17); but the immediate-repeat filler rule also emits no
cut, because `"i"` and `"went"` are not in the French `COMMON_REPEATABLE`
set.  The claimed behavior does occur for repeatable-set words: on
`["je","je","donc","donc","la"]` with the same timing the earlier `"je"` and
the earlier `"donc"` are cut, leaving `"je donc la"`. -/
theorem filler_restart_example_amended (sim : String → String → ℚ)
    (hsim : sim "i i" "went went" < 9/10) :
    detect_restarts sim englishWords 2 (9/10) (3/2) = [] ∧
    detect_fillers englishWords (6/10) (9/10) (1/2) (35/100) = [] ∧
    detect_fillers frenchWords (6/10) (9/10) (1/2) (35/100) = [(0, 1/5), (3/5, 4/5)] := by
  refine ⟨?_, by decide, by decide⟩
  have h1 : ¬ sim (windowText englishWords 0 2) (windowText englishWords 2 2) ≥ 9/10 := by
    rw [show windowText englishWords 0 2 = "i i" from by decide,
        show windowText englishWords 2 2 = "went went" from by decide]
    exact not_le.mpr hsim
  unfold detect_restarts
  simp only [restartLoop, restartScan]
  norm_num [englishWords] at h1 ⊢
  rw [if_neg (not_le.mpr h1)]

/-- C6 witness: instantiating the similarity oracle with the concrete
equality-indicator similarity (the two window texts are distinct). -/
theorem filler_restart_example_amended_witness :
    detect_restarts simEq englishWords 2 (9/10) (3/2) = [] ∧
    detect_fillers englishWords (6/10) (9/10) (1/2) (35/100) = [] ∧
    detect_fillers frenchWords (6/10) (9/10) (1/2) (35/100) = [(0, 1/5), (3/5, 4/5)] :=
  filler_restart_example_amended simEq (by decide)

/-! ## Monotonicity and bounds for the repetition detection fold (C1, C5) -/

/-- The lookback decision never removes indices from the drop set. -/
theorem repLookback_subset (nt : List String) (sg : List (ℚ × ℚ))
    (sim : String → String → ℚ) (lb : ℕ) (ms mk : ℚ) (i : ℕ) (drop : Finset ℕ) :
    drop ⊆ repLookback nt sg sim lb ms mk i drop := by
  unfold repLookback
  dsimp only
  split
  · exact Finset.Subset.refl drop
  · split_ifs <;>
      first
        | exact Finset.subset_insert _ _
        | exact Finset.Subset.refl drop

/-- One iteration of the detection loop never removes indices. -/
theorem repStep_subset (nt : List String) (sg : List (ℚ × ℚ))
    (sim : String → String → ℚ) (lb : ℕ) (ms mk : ℚ) (drop : Finset ℕ) (i : ℕ) :
    drop ⊆ repStep nt sg sim lb ms mk drop i := by
  unfold repStep
  split_ifs <;>
    first
      | exact Finset.subset_insert _ _
      | exact Finset.Subset.refl drop
      | exact repLookback_subset nt sg sim lb ms mk i drop

/-- The whole fold never removes indices. -/
theorem repFold_subset (nt : List String) (sg : List (ℚ × ℚ))
    (sim : String → String → ℚ) (lb : ℕ) (ms mk : ℚ) :
    ∀ (l : List ℕ) (drop : Finset ℕ),
      drop ⊆ l.foldl (repStep nt sg sim lb ms mk) drop
  | [], _ => Finset.Subset.refl _
  | a :: l, drop => by
    rw [List.foldl_cons]
    exact (repStep_subset nt sg sim lb ms mk drop a).trans
      (repFold_subset nt sg sim lb ms mk l _)

/-- The lookback decision only adds `i` itself or an earlier index. -/
theorem repLookback_mem (nt : List String) (sg : List (ℚ × ℚ))
    (sim : String → String → ℚ) (lb : ℕ) (ms mk : ℚ) (i : ℕ) (drop : Finset ℕ)
    {a : ℕ} (h : a ∈ repLookback nt sg sim lb ms mk i drop) : a ∈ drop ∨ a ≤ i := by
  unfold repLookback at h
  dsimp only at h
  split at h
  · exact Or.inl h
  · next j heq =>
    have hj : j < i := by
      have hmem := List.mem_of_find?_eq_some heq
      rw [List.mem_range'] at hmem
      obtain ⟨k, hk, rfl⟩ := hmem
      omega
    split_ifs at h <;>
      first
        | exact Or.inl h
        | (rcases Finset.mem_insert.mp h with rfl | h
           · exact Or.inr le_rfl
           · exact Or.inl h)
        | (rcases Finset.mem_insert.mp h with rfl | h
           · exact Or.inr (le_of_lt hj)
           · exact Or.inl h)

/-- One iteration only adds `i` itself or an earlier index. -/
theorem repStep_mem (nt : List String) (sg : List (ℚ × ℚ))
    (sim : String → String → ℚ) (lb : ℕ) (ms mk : ℚ) (drop : Finset ℕ) (i : ℕ)
    {a : ℕ} (h : a ∈ repStep nt sg sim lb ms mk drop i) : a ∈ drop ∨ a ≤ i := by
  unfold repStep at h
  split_ifs at h <;>
    first
      | exact Or.inl h
      | exact repLookback_mem nt sg sim lb ms mk i drop h
      | (rcases Finset.mem_insert.mp h with rfl | h
         · exact Or.inr le_rfl
         · exact Or.inl h)

/-- After processing the first `n` indices, the drop set contains only
indices below `n`. -/
theorem repFold_lt (nt : List String) (sg : List (ℚ × ℚ))
    (sim : String → String → ℚ) (lb : ℕ) (ms mk : ℚ) :
    ∀ (n : ℕ) {a : ℕ},
      a ∈ (List.range n).foldl (repStep nt sg sim lb ms mk) ∅ → a < n
  | 0, a, h => by simp at h
  | n + 1, a, h => by
    rw [List.range_succ, List.foldl_append, List.foldl_cons, List.foldl_nil] at h
    rcases repStep_mem nt sg sim lb ms mk _ n h with h | h
    · exact lt_trans (repFold_lt nt sg sim lb ms mk n h) (Nat.lt_succ_self n)
    · exact Nat.lt_succ_of_le h

/-! ## The A-B-A correction branch (C5) -/

/-- C5 counterexample: with segments `(0,2) (2,3) (3,6) (6,8)` and texts
`"zzz yyy"`, `"alpha beta"`, `"alpha beta gamma delta epsilon zeta"`,
`"alpha beta"` under the equality-indicator similarity, index `3` satisfies
the A-B-A hypotheses with a substantial middle segment (index 2: 3 s, six
long words), and index `3` is indeed kept — but index `1` (= `i - 2`) was
already dropped by the containment rule against segment `2`, so "keeps both
segment `i` and segment `i-2`" fails: the drop set is exactly `{1}`. -/
theorem aba_pattern_counterexample :
    simEq ((["zzz yyy", "alpha beta", "alpha beta gamma delta epsilon zeta",
        "alpha beta"].map id).getD 3 "")
      ((["zzz yyy", "alpha beta", "alpha beta gamma delta epsilon zeta",
        "alpha beta"].map id).getD 2 "") < 78/100 ∧
    simEq ((["zzz yyy", "alpha beta", "alpha beta gamma delta epsilon zeta",
        "alpha beta"].map id).getD 3 "")
      ((["zzz yyy", "alpha beta", "alpha beta gamma delta epsilon zeta",
        "alpha beta"].map id).getD 1 "") ≥ 78/100 ∧
    ¬ is_trivial_segment ((["zzz yyy", "alpha beta",
        "alpha beta gamma delta epsilon zeta", "alpha beta"].map id).getD 2 "") (6 - 3) ∧
    detect_repetition_segments id simEq [(0, 2), (2, 3), (3, 6), (6, 8)]
      ["zzz yyy", "alpha beta", "alpha beta gamma delta epsilon zeta", "alpha beta"]
      3 (78/100) (45/100) = {1} := by
  refine ⟨by decide, by decide, by decide, by decide⟩

/-- C5 amended: for `i ≥ 2` with normalized text nonempty, similarity to
`i-1` below `min_sim` and similarity to `i-2` at least `min_sim`: if segment
`i-1` is trivial then `i` is always dropped; if segment `i-1` is substantial
then iteration `i` drops nothing — in particular `i` is kept whenever it is
the last segment — but segment `i-2` may already have been dropped by an
earlier rule, and a later segment may still drop `i`. -/
theorem aba_pattern_amended (normalize : String → String)
    (sim : String → String → ℚ) (segments : List (ℚ × ℚ)) (texts : List String)
    (lookback : ℕ) (min_sim min_keep_s : ℚ) (i : ℕ)
    (_hlen : segments.length = texts.length)
    (hi2 : 2 ≤ i) (hin : i < texts.length)
    (hne : (texts.map normalize).getD i "" ≠ "")
    (hprev : sim ((texts.map normalize).getD i "")
      ((texts.map normalize).getD (i - 1) "") < min_sim)
    (hprev2 : sim ((texts.map normalize).getD i "")
      ((texts.map normalize).getD (i - 2) "") ≥ min_sim) :
    (is_trivial_segment ((texts.map normalize).getD (i - 1) "")
        ((segments.getD (i - 1) (0, 0)).2 - (segments.getD (i - 1) (0, 0)).1) →
      i ∈ detect_repetition_segments normalize sim segments texts
        lookback min_sim min_keep_s) ∧
    (¬ is_trivial_segment ((texts.map normalize).getD (i - 1) "")
        ((segments.getD (i - 1) (0, 0)).2 - (segments.getD (i - 1) (0, 0)).1) →
      texts.length = i + 1 →
      i ∉ detect_repetition_segments normalize sim segments texts
        lookback min_sim min_keep_s) := by
  set nt := texts.map normalize with hnt
  have hntlen : nt.length = texts.length := List.length_map texts normalize
  have hmain : ∀ drop : Finset ℕ, (∀ a ∈ drop, a < i) →
      repStep nt segments sim lookback min_sim min_keep_s drop i =
        (if containmentFires nt segments i then insert i drop
         else if is_trivial_segment (nt.getD (i - 1) "")
            ((segments.getD (i - 1) (0, 0)).2 - (segments.getD (i - 1) (0, 0)).1) then
           insert i drop
         else drop) := by
    intro drop hdrop
    unfold repStep
    by_cases hc : containmentFires nt segments i
    · rw [if_pos hc, if_pos hc]
    · rw [if_neg hc, if_neg hc]
      rw [if_neg (by intro hmem; exact absurd (hdrop i hmem) (lt_irrefl i))]
      rw [if_neg (by simpa using hne)]
      rw [if_neg (by rintro ⟨-, habs⟩; exact absurd habs (not_le.mpr hprev))]
      rw [if_pos ⟨hi2, hprev2⟩]
  unfold detect_repetition_segments
  dsimp only
  rw [← hnt, hntlen]
  constructor
  · intro htriv
    have hsplit : texts.length = (i + 1) + (texts.length - (i + 1)) := by omega
    rw [hsplit, List.range_add, List.foldl_append]
    refine repFold_subset nt segments sim lookback min_sim min_keep_s _ _ ?_
    rw [List.range_succ, List.foldl_append, List.foldl_cons, List.foldl_nil]
    rw [hmain _ (fun a ha => repFold_lt nt segments sim lookback min_sim min_keep_s i ha)]
    split_ifs <;> exact Finset.mem_insert_self i _
  · intro htriv hlast
    rw [hlast, List.range_succ, List.foldl_append, List.foldl_cons, List.foldl_nil]
    rw [hmain _ (fun a ha => repFold_lt nt segments sim lookback min_sim min_keep_s i ha)]
    have hcont : ¬ containmentFires nt segments i := by
      intro hc
      have h1 := hc.1
      rw [hntlen, hlast] at h1
      omega
    rw [if_neg hcont, if_neg htriv]
    intro hmem
    exact absurd (repFold_lt nt segments sim lookback min_sim min_keep_s i hmem)
      (lt_irrefl i)

/-! ## Repetition drop symmetry on an adjacent pair (C1) -/

/-- C1 counterexample: two segments with identical normalized text
(`"bonjour tout le monde"`), durations 0.2 s and 0.3 s with the shorter
first; the survivor (0.3 s) is below `min_keep_s = 0.45`, so by the claim
neither should be dropped — but the containment fast path drops index 0
without consulting `min_keep_s`. -/
theorem repetition_drop_symmetry_counterexample :
    detect_repetition_segments id simEq [(0, 1/5), (1/2, 4/5)]
      ["bonjour tout le monde", "bonjour tout le monde"] 3 (78/100) (45/100) = {0} ∧
    (4/5 - 1/2 : ℚ) < 45/100 :=
  ⟨by decide, by decide⟩

/-- C1 amended, for a transcript of exactly the two adjacent segments: the
shorter segment is dropped regardless of order whenever the survivor is long
enough, but the `min_keep_s` protection only applies when the shorter
segment comes second (or when the shared normalized text has no token longer
than two characters): when the shorter segment comes first and the text has
such a token, the containment rule drops it unconditionally. -/
theorem repetition_drop_symmetry_amended (normalize : String → String)
    (sim : String → String → ℚ) (t0 t1 : String)
    (s0 e0 s1 e1 min_sim min_keep_s : ℚ) (lookback : ℕ)
    (hlb : 1 ≤ lookback)
    (heq : normalize t0 = normalize t1)
    (hne : normalize t0 ≠ "")
    (hsim : sim (normalize t0) (normalize t0) ≥ min_sim) :
    (e1 - s1 < e0 - s0 →
      detect_repetition_segments normalize sim [(s0, e0), (s1, e1)] [t0, t1]
        lookback min_sim min_keep_s
        = if e0 - s0 ≥ min_keep_s then {1} else ∅) ∧
    (e0 - s0 < e1 - s1 → token_set (normalize t0) ≠ ∅ →
      detect_repetition_segments normalize sim [(s0, e0), (s1, e1)] [t0, t1]
        lookback min_sim min_keep_s = {0}) ∧
    (e0 - s0 < e1 - s1 → token_set (normalize t0) = ∅ →
      detect_repetition_segments normalize sim [(s0, e0), (s1, e1)] [t0, t1]
        lookback min_sim min_keep_s
        = if e1 - s1 ≥ min_keep_s then {0} else ∅) := by
  have hmap : [t0, t1].map normalize = [normalize t0, normalize t0] := by
    rw [List.map_cons, List.map_cons, List.map_nil, ← heq]
  set n := normalize t0 with hn
  have hc1 : ¬ containmentFires [n, n] [(s0, e0), (s1, e1)] 1 := by
    rintro ⟨habs, -⟩
    simp at habs
  refine ⟨?_, ?_, ?_⟩
  · -- shorter second: lookback decision with the min-keep guard
    intro hdur
    unfold detect_repetition_segments
    dsimp only
    rw [hmap]
    rw [show List.range ([n, n] : List String).length = [0, 1] from rfl]
    rw [List.foldl_cons, List.foldl_cons, List.foldl_nil]
    have hc0 : ¬ containmentFires [n, n] [(s0, e0), (s1, e1)] 0 := by
      rintro ⟨-, -, -, -, habs⟩
      simp only [List.getD_cons_zero, List.getD_cons_succ] at habs
      linarith
    have hstep0 :
        repStep [n, n] [(s0, e0), (s1, e1)] sim lookback min_sim min_keep_s ∅ 0 = ∅ := by
      unfold repStep
      rw [if_neg hc0, if_neg (Finset.not_mem_empty 0)]
      rw [if_neg (by simpa using hne)]
      rw [if_neg (by rintro ⟨habs, -⟩; exact absurd habs (lt_irrefl 0))]
      rw [if_neg (by rintro ⟨habs, -⟩; omega)]
      unfold repLookback
      rw [show (0:ℕ) - lookback = 0 from by omega, show min 0 lookback = 0 from by omega]
      rfl
    rw [hstep0]
    unfold repStep
    rw [if_neg hc1, if_neg (Finset.not_mem_empty 1)]
    rw [if_neg (by simpa using hne)]
    rw [if_pos ⟨Nat.zero_lt_one, by simpa using hsim⟩]
    unfold repLookback
    rw [Nat.sub_eq_zero_of_le hlb, show min 1 lookback = 1 from by omega]
    rw [show List.range' 0 1 = [0] from rfl]
    dsimp only
    rw [List.find?_cons_of_pos _ (by simp [hne, hsim])]
    dsimp only [List.getD_cons_zero, List.getD_cons_succ]
    rw [if_pos hdur]
    by_cases hk : e0 - s0 ≥ min_keep_s
    · rw [if_pos hk, if_pos hk]
      decide
    · rw [if_neg hk, if_neg hk]
  · -- shorter first with tokens: containment drops it, no min-keep guard
    intro hdur htok
    unfold detect_repetition_segments
    dsimp only
    rw [hmap]
    rw [show List.range ([n, n] : List String).length = [0, 1] from rfl]
    rw [List.foldl_cons, List.foldl_cons, List.foldl_nil]
    have hc0 : containmentFires [n, n] [(s0, e0), (s1, e1)] 0 := by
      refine ⟨by norm_num, ?_, ?_, ?_, ?_⟩ <;>
        simp only [List.getD_cons_zero, List.getD_cons_succ]
      · exact htok
      · exact htok
      · rw [Finset.inter_self]
        rw [div_self
          (Nat.cast_ne_zero.mpr (fun h => htok (Finset.card_eq_zero.mp h)))]
        norm_num
      · exact hdur
    have hstep0 :
        repStep [n, n] [(s0, e0), (s1, e1)] sim lookback min_sim min_keep_s ∅ 0 =
          insert 0 ∅ := by
      unfold repStep
      rw [if_pos hc0]
    rw [hstep0]
    unfold repStep
    rw [if_neg hc1, if_neg (by decide : ¬ (1 ∈ (insert 0 ∅ : Finset ℕ)))]
    rw [if_neg (by simpa using hne)]
    rw [if_pos ⟨Nat.zero_lt_one, by simpa using hsim⟩]
    unfold repLookback
    rw [Nat.sub_eq_zero_of_le hlb, show min 1 lookback = 1 from by omega]
    rw [show List.range' 0 1 = [0] from rfl]
    dsimp only
    rw [List.find?_cons_of_neg _ (by simp), List.find?_nil]
    show (insert 0 ∅ : Finset ℕ) = {0}
    decide
  · -- shorter first without tokens: lookback decision with the min-keep guard
    intro hdur htok
    unfold detect_repetition_segments
    dsimp only
    rw [hmap]
    rw [show List.range ([n, n] : List String).length = [0, 1] from rfl]
    rw [List.foldl_cons, List.foldl_cons, List.foldl_nil]
    have hc0 : ¬ containmentFires [n, n] [(s0, e0), (s1, e1)] 0 := by
      rintro ⟨-, habs, -, -, -⟩
      simp only [List.getD_cons_zero] at habs
      exact habs htok
    have hstep0 :
        repStep [n, n] [(s0, e0), (s1, e1)] sim lookback min_sim min_keep_s ∅ 0 = ∅ := by
      unfold repStep
      rw [if_neg hc0, if_neg (Finset.not_mem_empty 0)]
      rw [if_neg (by simpa using hne)]
      rw [if_neg (by rintro ⟨habs, -⟩; exact absurd habs (lt_irrefl 0))]
      rw [if_neg (by rintro ⟨habs, -⟩; omega)]
      unfold repLookback
      rw [show (0:ℕ) - lookback = 0 from by omega, show min 0 lookback = 0 from by omega]
      rfl
    rw [hstep0]
    unfold repStep
    rw [if_neg hc1, if_neg (Finset.not_mem_empty 1)]
    rw [if_neg (by simpa using hne)]
    rw [if_pos ⟨Nat.zero_lt_one, by simpa using hsim⟩]
    unfold repLookback
    rw [Nat.sub_eq_zero_of_le hlb, show min 1 lookback = 1 from by omega]
    rw [show List.range' 0 1 = [0] from rfl]
    dsimp only
    rw [List.find?_cons_of_pos _ (by simp [hne, hsim])]
    dsimp only [List.getD_cons_zero, List.getD_cons_succ]
    rw [if_neg (lt_asymm hdur), if_pos hdur]
    by_cases hk : e1 - s1 ≥ min_keep_s
    · rw [if_pos hk, if_pos hk]
      decide
    · rw [if_neg hk, if_neg hk]

/-- C1 witness: a shorter first take of `"bonjour tout le monde"` against a
longer second take is dropped by the containment rule. -/
theorem repetition_drop_symmetry_amended_witness :
    detect_repetition_segments id simEq [(0, 1), (2, 7/2)]
      ["bonjour tout le monde", "bonjour tout le monde"] 3 (78/100) (45/100) = {0} :=
  (repetition_drop_symmetry_amended id simEq
    "bonjour tout le monde" "bonjour tout le monde" 0 1 2 (7/2) (78/100) (45/100) 3
    (by decide) rfl (by decide) (by decide)).2.1 (by decide) (by decide)

/-! ## Bounds on the gaze loop (C3, C4) -/

/-- Invariant of the per-segment gaze loop: provided the clock starts at or
after `s` and the incoming state only holds sampled times in `(s, e + δ]`,
every interval in the result (and the final `active_start`/`last_keep_t`)
stays in `(s, e + δ]`, and every emitted interval respects the minimum
duration. -/
theorem gazeSegLoop_inv (obs : ℕ → FrameObs) (cfg : GazeCfg) (δ e : ℚ)
    (hδ : 0 < δ) (s : ℚ) :
    ∀ (fuel k : ℕ) (t : ℚ) (act lk : Option ℚ) (acc : List (ℚ × ℚ)),
      s ≤ t →
      (∀ a, act = some a → s < a ∧ a ≤ e + δ) →
      (∀ a, lk = some a → s < a ∧ a ≤ e + δ) →
      (∀ p ∈ acc, (s < p.1 ∧ p.1 ≤ e + δ) ∧ (s < p.2 ∧ p.2 ≤ e + δ) ∧
        p.2 - p.1 ≥ cfg.min_segment_duration_s) →
      (∀ p ∈ (gazeSegLoop obs cfg δ e fuel k t act lk acc).1,
        (s < p.1 ∧ p.1 ≤ e + δ) ∧ (s < p.2 ∧ p.2 ≤ e + δ) ∧
        p.2 - p.1 ≥ cfg.min_segment_duration_s) ∧
      (∀ a, (gazeSegLoop obs cfg δ e fuel k t act lk acc).2.1 = some a →
        s < a ∧ a ≤ e + δ) ∧
      (∀ a, (gazeSegLoop obs cfg δ e fuel k t act lk acc).2.2 = some a →
        s < a ∧ a ≤ e + δ)
  | 0, _, _, _, _, _, _, hact, hlk, hacc => ⟨hacc, hact, hlk⟩
  | fuel + 1, k, t, act, lk, acc, ht, hact, hlk, hacc => by
    rw [gazeSegLoop]
    by_cases hte : t ≤ e
    · rw [if_pos hte]
      have ht' : s ≤ t + δ := le_trans ht (by linarith)
      have hnew : ∀ a, some (t + δ) = some a → s < a ∧ a ≤ e + δ := by
        rintro a ha
        injection ha with ha
        subst ha
        exact ⟨by linarith, by linarith⟩
      cases hobs : obs k with
      | noFrame => exact ⟨hacc, hact, hlk⟩
      | noFace =>
        dsimp only
        by_cases hnone : act.isNone
        · rw [if_pos hnone]
          exact gazeSegLoop_inv obs cfg δ e hδ s fuel (k + 1) (t + δ)
            (some (t + δ)) (some (t + δ)) acc ht' hnew hnew hacc
        · rw [if_neg hnone]
          exact gazeSegLoop_inv obs cfg δ e hδ s fuel (k + 1) (t + δ)
            act (some (t + δ)) acc ht' hact hnew hacc
      | noIris =>
        exact gazeSegLoop_inv obs cfg δ e hδ s fuel (k + 1) (t + δ)
          act (some (t + δ)) acc ht' hact hnew hacc
      | reading =>
        dsimp only
        cases act with
        | none =>
          exact gazeSegLoop_inv obs cfg δ e hδ s fuel (k + 1) (t + δ)
            none lk acc ht' (by rintro a ⟨⟩) hlk hacc
        | some a =>
          cases lk with
          | none =>
            exact gazeSegLoop_inv obs cfg δ e hδ s fuel (k + 1) (t + δ)
              (some a) none acc ht' hact (by rintro b ⟨⟩) hacc
          | some l =>
            dsimp only
            by_cases hcond : a ≠ 0 ∧ l ≠ 0 ∧ t + δ - l > cfg.max_invalid_gap_s
            · rw [if_pos hcond]
              by_cases hmin : l - a ≥ cfg.min_segment_duration_s
              · rw [if_pos hmin]
                refine gazeSegLoop_inv obs cfg δ e hδ s fuel (k + 1) (t + δ)
                  none none (acc ++ [(a, l)]) ht' (by rintro b ⟨⟩) (by rintro b ⟨⟩) ?_
                intro p hp
                rcases List.mem_append.mp hp with hp | hp
                · exact hacc p hp
                · rcases List.mem_singleton.mp hp with rfl
                  exact ⟨hact a rfl, hlk l rfl, hmin⟩
              · rw [if_neg hmin]
                exact gazeSegLoop_inv obs cfg δ e hδ s fuel (k + 1) (t + δ)
                  none none acc ht' (by rintro b ⟨⟩) (by rintro b ⟨⟩) hacc
            · rw [if_neg hcond]
              exact gazeSegLoop_inv obs cfg δ e hδ s fuel (k + 1) (t + δ)
                (some a) (some l) acc ht' hact hlk hacc
      | notReading =>
        dsimp only
        by_cases hnone : act.isNone
        · rw [if_pos hnone]
          exact gazeSegLoop_inv obs cfg δ e hδ s fuel (k + 1) (t + δ)
            (some (t + δ)) (some (t + δ)) acc ht' hnew hnew hacc
        · rw [if_neg hnone]
          exact gazeSegLoop_inv obs cfg δ e hδ s fuel (k + 1) (t + δ)
            act (some (t + δ)) acc ht' hact hnew hacc
    · rw [if_neg hte]
      exact ⟨hacc, hact, hlk⟩

/-- Every interval produced for one segment lies within `(s, e + δ]` and
respects the minimum duration. -/
theorem gazeRunSeg_inv (obs : ℕ → FrameObs) (cfg : GazeCfg) (δ : ℚ)
    (hδ : 0 < δ) (seg : ℚ × ℚ) :
    ∀ p ∈ gazeRunSeg obs cfg δ seg,
      (seg.1 < p.1 ∧ p.1 ≤ seg.2 + δ) ∧ (seg.1 < p.2 ∧ p.2 ≤ seg.2 + δ) ∧
      p.2 - p.1 ≥ cfg.min_segment_duration_s := by
  intro p hp
  have hinv := gazeSegLoop_inv obs cfg δ seg.2 hδ seg.1
    (gazeFuel δ seg.1 seg.2) 0 seg.1 none none [] le_rfl
    (by rintro a ⟨⟩) (by rintro a ⟨⟩) (by intro p hp; cases hp)
  unfold gazeRunSeg at hp
  dsimp only at hp
  rcases hr1 : (gazeSegLoop obs cfg δ seg.2 (gazeFuel δ seg.1 seg.2) 0 seg.1
      none none []).2.1 with _ | a <;>
    rcases hr2 : (gazeSegLoop obs cfg δ seg.2 (gazeFuel δ seg.1 seg.2) 0 seg.1
        none none []).2.2 with _ | l <;>
    rw [hr1, hr2] at hp <;> dsimp only at hp
  · exact hinv.1 p hp
  · exact hinv.1 p hp
  · exact hinv.1 p hp
  · by_cases htr : a ≠ 0 ∧ l ≠ 0
    · rw [if_pos htr] at hp
      by_cases hmin : l - a ≥ cfg.min_segment_duration_s
      · rw [if_pos hmin] at hp
        rcases List.mem_append.mp hp with hp | hp
        · exact hinv.1 p hp
        · rcases List.mem_singleton.mp hp with rfl
          exact ⟨hinv.2.1 a hr1, hinv.2.2 l hr2, hmin⟩
      · rw [if_neg hmin] at hp
        exact hinv.1 p hp
    · rw [if_neg htr] at hp
      exact hinv.1 p hp

/-- Starts and ends of `merge_close_segments` output intervals are starts and
ends of input intervals. -/
theorem mergeCloseLoop_endpoints (gap : ℚ) : ∀ (cur : ℚ × ℚ) (rest : List (ℚ × ℚ)),
    ∀ p ∈ mergeCloseLoop gap cur rest,
      p.1 ∈ (cur :: rest).map Prod.fst ∧ p.2 ∈ (cur :: rest).map Prod.snd
  | cur, [], p, hp => by
    rcases List.mem_singleton.mp hp with rfl
    exact ⟨List.mem_cons_self _ _, List.mem_cons_self _ _⟩
  | cur, (s, e) :: rest, p, hp => by
    unfold mergeCloseLoop at hp
    by_cases h : s - cur.2 ≤ gap
    · rw [if_pos h] at hp
      have := mergeCloseLoop_endpoints gap (cur.1, max cur.2 e) rest p hp
      constructor
      · rcases List.mem_cons.mp this.1 with h1 | h1
        · exact h1 ▸ List.mem_cons_self _ _
        · simp only [List.map_cons, List.mem_cons] at h1 ⊢
          tauto
      · rcases List.mem_cons.mp this.2 with h1 | h1
        · rcases max_choice cur.2 e with hmax | hmax <;>
            simp only [List.map_cons, List.mem_cons] <;> rw [h1, hmax] <;> tauto
        · simp only [List.map_cons, List.mem_cons] at h1 ⊢
          tauto
    · rw [if_neg h] at hp
      rcases List.mem_cons.mp hp with rfl | hp
      · exact ⟨List.mem_cons_self _ _, List.mem_cons_self _ _⟩
      · have := mergeCloseLoop_endpoints gap (s, e) rest p hp
        simp only [List.map_cons, List.mem_cons] at this ⊢
        tauto

/-- The close-merge preserves nondegeneracy. -/
theorem mergeCloseLoop_nondeg (gap : ℚ) : ∀ (cur : ℚ × ℚ) (rest : List (ℚ × ℚ)),
    cur.1 < cur.2 → (∀ p ∈ rest, p.1 < p.2) →
    ∀ p ∈ mergeCloseLoop gap cur rest, p.1 < p.2
  | _, [], hcur, _, p, hp => by
    rcases List.mem_singleton.mp hp with rfl
    exact hcur
  | cur, (s, e) :: rest, hcur, hrest, p, hp => by
    unfold mergeCloseLoop at hp
    by_cases h : s - cur.2 ≤ gap
    · rw [if_pos h] at hp
      exact mergeCloseLoop_nondeg gap (cur.1, max cur.2 e) rest
        (lt_of_lt_of_le hcur (le_max_left _ _))
        (fun q hq => hrest q (List.mem_cons_of_mem _ hq)) p hp
    · rw [if_neg h] at hp
      rcases List.mem_cons.mp hp with rfl | hp
      · exact hcur
      · exact mergeCloseLoop_nondeg gap (s, e) rest
          (hrest (s, e) (List.mem_cons_self _ _))
          (fun q hq => hrest q (List.mem_cons_of_mem _ hq)) p hp

/-- The sampling step is positive for positive fps. -/
theorem gazeDelta_pos (fps : ℚ) (cfg : GazeCfg) (hfps : 0 < fps) :
    0 < gazeDelta fps cfg := by
  unfold gazeDelta
  apply div_pos _ hfps
  have h1 : (1 : ℕ) ≤ max (Int.toNat ⌊fps / cfg.sample_fps⌋) 1 := le_max_right _ _
  exact_mod_cast lt_of_lt_of_le Nat.zero_lt_one h1

/-- Membership in the flattened per-segment refinement lists comes from one
input segment. -/
theorem refined_mem (obs : ℕ → ℕ → FrameObs) (fps : ℚ)
    (segments : List (ℚ × ℚ)) (cfg : GazeCfg) (q : ℚ × ℚ)
    (hq : q ∈ (segments.enum.map
      (fun p => gazeRunSeg (obs p.1) cfg (gazeDelta fps cfg) p.2)).flatten) :
    ∃ i seg, seg ∈ segments ∧
      q ∈ gazeRunSeg (obs i) cfg (gazeDelta fps cfg) seg := by
  rw [List.mem_flatten] at hq
  obtain ⟨l, hl, hql⟩ := hq
  rw [List.mem_map] at hl
  obtain ⟨p, hp, rfl⟩ := hl
  obtain ⟨hlt, heq⟩ := List.mem_enum hp
  exact ⟨p.1, p.2, heq ▸ List.getElem_mem hlt, hql⟩

/-! ## Subset/shrink property (C3) -/

/-- C3 counterexample: with every sampled frame classified "not reading",
fps 30 and the default gaze config, the input segment `(0, 1)` is refined to
`(0.1, 1.1)`: the loop advances the clock past `seg_end` by one sampling step
(0.1 s) before the bound check stops it, so the point `1.05` lies in the
output union but not in the input union — the output is NOT a subset of the
input coverage. -/
theorem subset_shrink_counterexample :
    refine_segments_by_gaze (fun _ _ => FrameObs.notReading) 30 [(0, 1)]
      gazeCfgDefault = [(1/10, 11/10)] ∧
    inUnion (21/20) (refine_segments_by_gaze (fun _ _ => FrameObs.notReading) 30
      [(0, 1)] gazeCfgDefault) ∧
    ¬ inUnion (21/20) [(0, 1)] :=
  ⟨by decide, by decide, by decide⟩

/-- C3 amended: `apply_repetition_filter` satisfies the exact subset
property (the kept segments are input segments, so the output time union is
contained in the input time union); `refine_segments_by_gaze` satisfies it
only up to one sampling step `δ = gazeDelta fps cfg`: each output interval
endpoint exceeds the start of some input segment and is at most one `δ` past
the end of some input segment (interior points of an output interval may
additionally span merge gaps of at most `merge_gap_s`). -/
theorem subset_shrink_amended :
    (∀ (normalize : String → String) (sim : String → String → ℚ)
       (segments : List (ℚ × ℚ)) (texts : List String) (lookback : ℕ)
       (min_sim min_keep_s : ℚ),
       segments.length = texts.length →
       ∀ x : ℚ, inUnion x (apply_repetition_filter normalize sim segments texts
         lookback min_sim min_keep_s).1 → inUnion x segments) ∧
    (∀ (obs : ℕ → ℕ → FrameObs) (fps : ℚ) (segments : List (ℚ × ℚ))
       (cfg : GazeCfg), 0 < fps →
       ∀ p ∈ refine_segments_by_gaze obs fps segments cfg,
         (∃ q ∈ segments, q.1 < p.1 ∧ p.1 ≤ q.2 + gazeDelta fps cfg) ∧
         (∃ q ∈ segments, q.1 < p.2 ∧ p.2 ≤ q.2 + gazeDelta fps cfg)) := by
  constructor
  · intro normalize sim segments texts lookback min_sim min_keep_s hlen x hx
    obtain ⟨p, hp, hxp⟩ := hx
    refine ⟨p, ?_, hxp⟩
    have hsub : (apply_repetition_filter normalize sim segments texts lookback
        min_sim min_keep_s).1.Sublist segments := by
      unfold apply_repetition_filter
      have h1 := (applyKeep_sublist
        (detect_repetition_segments normalize sim segments texts lookback min_sim min_keep_s)
        0 (segments.zip texts)).map Prod.fst
      rwa [List.map_fst_zip segments texts (le_of_eq hlen)] at h1
    exact hsub.mem hp
  · intro obs fps segments cfg hfps p hp
    have hδ := gazeDelta_pos fps cfg hfps
    unfold refine_segments_by_gaze at hp
    rcases segments with _ | ⟨s0, srest⟩
    · cases hp
    · dsimp only at hp
      set δ := gazeDelta fps cfg with hdel
      set refined := ((s0 :: srest).enum.map
        (fun p => gazeRunSeg (obs p.1) cfg δ p.2)).flatten with href
      have hkey : ∀ q ∈ refined,
          ((∃ r ∈ (s0 :: srest), r.1 < q.1 ∧ q.1 ≤ r.2 + δ) ∧
           (∃ r ∈ (s0 :: srest), r.1 < q.2 ∧ q.2 ≤ r.2 + δ)) := by
        intro q hq
        obtain ⟨i, seg, hseg, hqseg⟩ := refined_mem obs fps (s0 :: srest) cfg q hq
        have := gazeRunSeg_inv (obs i) cfg δ hδ seg q hqseg
        exact ⟨⟨seg, hseg, this.1⟩, ⟨seg, hseg, this.2.1.1, this.2.1.2⟩⟩
      unfold merge_close_segments at hp
      rcases hrc : refined with _ | ⟨r0, rrest⟩
      · rw [hrc] at hp
        cases hp
      · rw [hrc] at hp
        have hend := mergeCloseLoop_endpoints cfg.merge_gap_s r0 rrest p hp
        constructor
        · obtain ⟨q, hq, hq1⟩ := List.mem_map.mp hend.1
          exact (hkey q (hrc ▸ hq)).1.imp
            (fun r hr => ⟨hr.1, hq1 ▸ hr.2⟩)
        · obtain ⟨q, hq, hq2⟩ := List.mem_map.mp hend.2
          exact (hkey q (hrc ▸ hq)).2.imp
            (fun r hr => ⟨hr.1, hq2 ▸ hr.2⟩)

/-- C3 witness: a point of the kept output of a concrete
`apply_repetition_filter` call lies in the input union. -/
theorem subset_shrink_amended_witness : inUnion (1/10) [((0 : ℚ), (1 : ℚ))] :=
  subset_shrink_amended.1 id simEq [(0, 1)] ["abc"] 3 (78/100) (45/100) rfl
    (1/10) (by decide)

/-! ## No degenerate intervals (C4) -/

/-- The clamp-and-cleanup pass only emits strictly increasing intervals. -/
theorem cleanSegs_nondeg (duration d m : ℚ) (segs : List (ℚ × ℚ)) :
    ∀ p ∈ cleanSegs duration d m segs, p.1 < p.2 := by
  intro p hp
  unfold cleanSegs at hp
  rw [List.mem_filterMap] at hp
  obtain ⟨q, _, hf⟩ := hp
  dsimp only at hf
  split_ifs at hf with hf1 hf2 hf3
  injection hf with hf
  subst hf
  simpa using not_le.mp hf1

/-- The final merge of `build_segments_from_silences` preserves
nondegeneracy. -/
theorem finalMergeLoop_nondeg : ∀ (cur : ℚ × ℚ) (rest : List (ℚ × ℚ)),
    cur.1 < cur.2 → (∀ p ∈ rest, p.1 < p.2) →
    ∀ p ∈ finalMergeLoop cur rest, p.1 < p.2
  | _, [], hcur, _, p, hp => by
    rcases List.mem_singleton.mp hp with rfl
    exact hcur
  | cur, (s, e) :: rest, hcur, hrest, p, hp => by
    unfold finalMergeLoop at hp
    by_cases h : s ≤ cur.2
    · rw [if_pos h] at hp
      exact finalMergeLoop_nondeg (cur.1, max cur.2 e) rest
        (lt_of_lt_of_le hcur (le_max_left _ _))
        (fun q hq => hrest q (List.mem_cons_of_mem _ hq)) p hp
    · rw [if_neg h] at hp
      rcases List.mem_cons.mp hp with rfl | hp
      · exact hcur
      · exact finalMergeLoop_nondeg (s, e) rest
          (hrest (s, e) (List.mem_cons_self _ _))
          (fun q hq => hrest q (List.mem_cons_of_mem _ hq)) p hp

/-- The filler-filter merge preserves nondegeneracy. -/
theorem mergeLoopFF_nondeg : ∀ (cur : ℚ × ℚ) (rest : List (ℚ × ℚ)),
    cur.1 < cur.2 → (∀ p ∈ rest, p.1 < p.2) →
    ∀ p ∈ mergeLoopFF cur rest, p.1 < p.2
  | _, [], hcur, _, p, hp => by
    rcases List.mem_singleton.mp hp with rfl
    exact hcur
  | cur, (s, e) :: rest, hcur, hrest, p, hp => by
    unfold mergeLoopFF at hp
    by_cases h : s ≤ cur.2 + 1/20
    · rw [if_pos h] at hp
      exact mergeLoopFF_nondeg (cur.1, max cur.2 e) rest
        (lt_of_lt_of_le hcur (le_max_left _ _))
        (fun q hq => hrest q (List.mem_cons_of_mem _ hq)) p hp
    · rw [if_neg h] at hp
      rcases List.mem_cons.mp hp with rfl | hp
      · exact hcur
      · exact mergeLoopFF_nondeg (s, e) rest
          (hrest (s, e) (List.mem_cons_self _ _))
          (fun q hq => hrest q (List.mem_cons_of_mem _ hq)) p hp

/-- The VAD post-merge preserves nondegeneracy. -/
theorem vadMergeLoop_nondeg (gap : ℚ) : ∀ (cur : ℚ × ℚ) (rest : List (ℚ × ℚ)),
    cur.1 < cur.2 → (∀ p ∈ rest, p.1 < p.2) →
    ∀ p ∈ vadMergeLoop gap cur rest, p.1 < p.2
  | _, [], hcur, _, p, hp => by
    rcases List.mem_singleton.mp hp with rfl
    exact hcur
  | cur, (s, e) :: rest, hcur, hrest, p, hp => by
    unfold vadMergeLoop at hp
    by_cases h : s - cur.2 ≤ gap
    · rw [if_pos h] at hp
      exact vadMergeLoop_nondeg gap (cur.1, max cur.2 e) rest
        (lt_of_lt_of_le hcur (le_max_left _ _))
        (fun q hq => hrest q (List.mem_cons_of_mem _ hq)) p hp
    · rw [if_neg h] at hp
      rcases List.mem_cons.mp hp with rfl | hp
      · exact hcur
      · exact vadMergeLoop_nondeg gap (s, e) rest
          (hrest (s, e) (List.mem_cons_self _ _))
          (fun q hq => hrest q (List.mem_cons_of_mem _ hq)) p hp

/-- Sorting and merging preserve nondegeneracy of the filler cuts. -/
theorem merge_intervals_nondeg (l : List (ℚ × ℚ)) (h : ∀ p ∈ l, p.1 < p.2) :
    ∀ p ∈ merge_intervals l, p.1 < p.2 := by
  intro p hp
  unfold merge_intervals at hp
  rcases hs : pySortPairs l with _ | ⟨x, rest⟩
  · rw [hs] at hp
    cases hp
  · rw [hs] at hp
    have hmem : ∀ q ∈ (x :: rest), q.1 < q.2 := by
      intro q hq
      have hq' : q ∈ pySortPairs l := by rw [hs]; exact hq
      exact h q ((List.perm_insertionSort pairLe l).mem_iff.mp hq')
    exact mergeLoopFF_nondeg x rest (hmem x (List.mem_cons_self _ _))
      (fun q hq => hmem q (List.mem_cons_of_mem _ hq)) p hp

/-- Every raw cut produced by the filler rules is the span of an input word
(the current word for rules A, B, D; the previous word for rule C). -/
theorem fillerCuts_nondeg (p1 p2 p3 p4 : ℚ) :
    ∀ (prev? : Option PWord) (words : List PWord),
      (∀ w ∈ words, w.start < w.stop) →
      (∀ w, prev? = some w → w.start < w.stop) →
      ∀ p ∈ fillerCuts p1 p2 p3 p4 prev? words, p.1 < p.2
  | _, [], _, _, _, hp => by cases hp
  | prev?, w :: rest, hw, hprev, p, hp => by
    have hrec := fillerCuts_nondeg p1 p2 p3 p4 (some w) rest
      (fun q hq => hw q (List.mem_cons_of_mem _ hq))
      (fun q hq => by injection hq with hq; exact hq ▸ hw w (List.mem_cons_self _ _))
    unfold fillerCuts at hp
    dsimp only at hp
    rcases List.mem_append.mp hp with hp | hp
    · have hww : w.start < w.stop := hw w (List.mem_cons_self _ _)
      split_ifs at hp
      · rcases List.mem_singleton.mp hp with rfl
        exact hww
      · rcases List.mem_singleton.mp hp with rfl
        exact hww
      · cases hpv : prev? with
        | none =>
          rw [hpv] at hp
          cases hp
        | some prev =>
          rw [hpv] at hp
          rcases List.mem_singleton.mp hp with rfl
          exact hprev prev hpv
      · rcases List.mem_singleton.mp hp with rfl
        exact hww
      · cases hp
    · exact hrec p hp

/-- Appending a frame to the ring yields ring members or the frame itself. -/
theorem ringPush_mem {np : ℕ} {r : List (ℚ × Bool)} {x q : ℚ × Bool}
    (h : q ∈ ringPush np r x) : q ∈ r ∨ q = x := by
  unfold ringPush at h
  have hsub := (List.drop_sublist _ _).mem h
  rcases List.mem_append.mp hsub with h1 | h1
  · exact Or.inl h1
  · exact Or.inr (List.mem_singleton.mp h1)

/-- One step of the VAD trigger loop preserves the loop invariant: closed
segments are nondegenerate, and the pending start (and every ring timestamp)
is the timestamp of an already-seen frame. -/
theorem vadStep_inv (isSpeech : ℕ → Bool) (np : ℕ) (d : ℚ) (hd : 0 < d) (k : ℕ)
    (st : VadState)
    (h1 : ∀ p ∈ st.voiced, p.1 < p.2)
    (h2 : st.triggered = true → ∃ j, j < k ∧ st.start_t = (j : ℚ) * d)
    (h3 : ∀ q ∈ st.ring, ∃ j, j < k ∧ q.1 = (j : ℚ) * d) :
    (∀ p ∈ (vadStep isSpeech np d st k).voiced, p.1 < p.2) ∧
    ((vadStep isSpeech np d st k).triggered = true →
      ∃ j, j < k + 1 ∧ (vadStep isSpeech np d st k).start_t = (j : ℚ) * d) ∧
    (∀ q ∈ (vadStep isSpeech np d st k).ring,
      ∃ j, j < k + 1 ∧ q.1 = (j : ℚ) * d) := by
  have hring : ∀ q ∈ ringPush np st.ring ((k : ℚ) * d, isSpeech k),
      ∃ j, j < k + 1 ∧ q.1 = (j : ℚ) * d := by
    intro q hq
    rcases ringPush_mem hq with hq | rfl
    · obtain ⟨j, hj, hje⟩ := h3 q hq
      exact ⟨j, Nat.lt_succ_of_lt hj, hje⟩
    · exact ⟨k, Nat.lt_succ_self k, rfl⟩
  unfold vadStep
  by_cases htr : st.triggered = false
  · rw [if_pos htr]
    dsimp only
    split_ifs with hnv
    · dsimp only
      refine ⟨h1, ?_, fun q hq => absurd hq (List.not_mem_nil q)⟩
      intro _
      rcases hrp : ringPush np st.ring ((k : ℚ) * d, isSpeech k) with _ | ⟨y, ys⟩
      · exact ⟨0, Nat.succ_pos k, by simp [List.headD]⟩
      · have hy : y ∈ ringPush np st.ring ((k : ℚ) * d, isSpeech k) := by
          rw [hrp]; exact List.mem_cons_self _ _
        obtain ⟨j, hj, hje⟩ := hring y hy
        exact ⟨j, hj, by simpa using hje⟩
    · dsimp only
      refine ⟨h1, ?_, hring⟩
      intro habs
      rw [htr] at habs
      cases habs
  · have htrue : st.triggered = true := by
      revert htr; cases st.triggered <;> simp
    rw [if_neg htr]
    dsimp only
    split_ifs with hnu
    · dsimp only
      refine ⟨?_, fun habs => absurd habs (by simp),
        fun q hq => absurd hq (List.not_mem_nil q)⟩
      intro p hp
      rcases List.mem_append.mp hp with hp | hp
      · exact h1 p hp
      · rcases List.mem_singleton.mp hp with rfl
        obtain ⟨j, hj, hje⟩ := h2 htrue
        dsimp only
        rw [hje]
        have hjk : (j : ℚ) ≤ (k : ℚ) := by exact_mod_cast Nat.le_of_lt_succ (Nat.lt_succ_of_lt hj)
        have := mul_le_mul_of_nonneg_right hjk (le_of_lt hd)
        linarith
    · dsimp only
      refine ⟨h1, ?_, hring⟩
      intro _
      obtain ⟨j, hj, hje⟩ := h2 htrue
      exact ⟨j, Nat.lt_succ_of_lt hj, hje⟩

/-- The VAD loop invariant holds after processing any number of frames. -/
theorem vadFold_inv (isSpeech : ℕ → Bool) (np : ℕ) (d : ℚ) (hd : 0 < d) :
    ∀ N : ℕ,
      (∀ p ∈ ((List.range N).foldl (vadStep isSpeech np d)
        ⟨false, [], 0, []⟩).voiced, p.1 < p.2) ∧
      (((List.range N).foldl (vadStep isSpeech np d)
        ⟨false, [], 0, []⟩).triggered = true →
        ∃ j, j < N ∧ ((List.range N).foldl (vadStep isSpeech np d)
          ⟨false, [], 0, []⟩).start_t = (j : ℚ) * d) ∧
      (∀ q ∈ ((List.range N).foldl (vadStep isSpeech np d)
        ⟨false, [], 0, []⟩).ring, ∃ j, j < N ∧ q.1 = (j : ℚ) * d)
  | 0 =>
    ⟨fun p hp => absurd hp (List.not_mem_nil p),
     fun habs => Bool.noConfusion habs,
     fun q hq => absurd hq (List.not_mem_nil q)⟩
  | N + 1 => by
    have ih := vadFold_inv isSpeech np d hd N
    rw [List.range_succ, List.foldl_append, List.foldl_cons, List.foldl_nil]
    exact vadStep_inv isSpeech np d hd N _ ih.1 ih.2.1 ih.2.2

/-- Sort-then-final-merge (the tail of `build_segments_from_silences`)
preserves nondegeneracy. -/
theorem sortFinalMerge_nondeg (l : List (ℚ × ℚ)) (h : ∀ p ∈ l, p.1 < p.2) :
    ∀ p ∈ (match pySortPairs l with
      | [] => ([] : List (ℚ × ℚ))
      | x :: rest => finalMergeLoop x rest), p.1 < p.2 := by
  intro p hp
  rcases hs : pySortPairs l with _ | ⟨x, rest⟩
  · rw [hs] at hp
    cases hp
  · rw [hs] at hp
    have hmem : ∀ q ∈ (x :: rest), q.1 < q.2 := by
      intro q hq
      have hq2 : q ∈ pySortPairs l := by rw [hs]; exact hq
      exact h q ((List.perm_insertionSort pairLe l).mem_iff.mp hq2)
    exact finalMergeLoop_nondeg x rest (hmem x (List.mem_cons_self _ _))
      (fun q hq => hmem q (List.mem_cons_of_mem _ hq)) p hp

/-- The guarded VAD merge (the tail of `vad_segments`) preserves
nondegeneracy. -/
theorem vadTailMerge_nondeg (gap : ℚ) (l : List (ℚ × ℚ)) (h : ∀ p ∈ l, p.1 < p.2) :
    ∀ p ∈ (match l with
      | [] => ([] : List (ℚ × ℚ))
      | x :: rest => vadMergeLoop gap x rest), p.1 < p.2 := by
  intro p hp
  rcases l with _ | ⟨x, rest⟩
  · cases hp
  · exact vadMergeLoop_nondeg gap x rest (h x (List.mem_cons_self _ _))
      (fun q hq => h q (List.mem_cons_of_mem _ hq)) p hp

/-- C4 counterexample: a zero-duration filler word (`"euh"` at `[1, 1]`,
allowed by the spec's Word invariant `end >= start`) makes `detect_fillers`
emit the degenerate cut span `(1, 1)` with `end = start`. -/
theorem no_degenerate_counterexample :
    detect_fillers [⟨"euh", 1, 1⟩] (6/10) (9/10) (1/2) (35/100) = [(1, 1)] ∧
    ¬ ((1 : ℚ) < 1) :=
  ⟨by decide, by decide⟩

/-- C4 amended: `build_segments_from_silences` never emits a degenerate
segment (for any input); `vad_segments` never does for a positive frame size;
`refine_segments_by_gaze` never does when `min_segment_duration_s` is
positive (as in the default config); and the cut spans of `detect_fillers`
are nondegenerate provided every input word satisfies the strict
`end > start` (a zero-duration word yields a degenerate cut). -/
theorem no_degenerate_amended :
    (∀ (duration_s : ℚ) (silences : List (ℚ × ℚ)) (p1 p2 p3 p4 p5 p6 : ℚ),
       ∀ p ∈ build_segments_from_silences duration_s silences p1 p2 p3 p4 p5 p6,
         p.1 < p.2) ∧
    (∀ (wf : WavFile) (isSpeech : ℕ → Bool)
       (frame_ms padding_ms min_segment_ms merge_gap_ms : ℕ)
       (out : List (ℚ × ℚ)),
       1 ≤ frame_ms →
       vad_segments wf isSpeech frame_ms padding_ms min_segment_ms merge_gap_ms
         = Except.ok out →
       ∀ p ∈ out, p.1 < p.2) ∧
    (∀ (obs : ℕ → ℕ → FrameObs) (fps : ℚ) (segments : List (ℚ × ℚ))
       (cfg : GazeCfg),
       0 < fps → 0 < cfg.min_segment_duration_s →
       ∀ p ∈ refine_segments_by_gaze obs fps segments cfg, p.1 < p.2) ∧
    (∀ (words : List PWord) (p1 p2 p3 p4 : ℚ),
       (∀ w ∈ words, w.start < w.stop) →
       ∀ p ∈ detect_fillers words p1 p2 p3 p4, p.1 < p.2) := by
  refine ⟨?_, ?_, ?_, ?_⟩
  · -- build_segments_from_silences
    intro duration_s silences p1 p2 p3 p4 p5 p6 p hp
    unfold build_segments_from_silences at hp
    split_ifs at hp
    · cases hp
    · dsimp only at hp
      split at hp
      · cases hp
      · exact sortFinalMerge_nondeg _ (cleanSegs_nondeg duration_s p6 p5 _) p hp
  · -- vad_segments
    intro wf isSpeech frame_ms padding_ms min_segment_ms merge_gap_ms out hframe hok
    unfold vad_segments read_wav at hok
    split_ifs at hok with hcond
    push_neg at hcond
    dsimp only at hok
    rw [hcond.2.1] at hok
    have hn : 16000 * frame_ms / 1000 * 2 = 32 * frame_ms := by
      rw [show 16000 * frame_ms = 16 * frame_ms * 1000 from by ring,
        Nat.mul_div_cancel _ (by norm_num)]
      ring
    rw [hn] at hok
    split at hok
    · injection hok with hok
      rw [← hok]
      intro p hp
      cases hp
    · next hN0 =>
      have hd : (0 : ℚ) < ((32 * frame_ms : ℕ) : ℚ) / 2 / ((16000 : ℕ) : ℚ) := by
        apply div_pos (div_pos _ (by norm_num)) (by norm_num)
        have h32 : (1 : ℕ) ≤ 32 * frame_ms :=
          le_trans hframe (Nat.le_mul_of_pos_left _ (by norm_num))
        exact_mod_cast lt_of_lt_of_le Nat.zero_lt_one h32
      set d : ℚ := ((32 * frame_ms : ℕ) : ℚ) / 2 / ((16000 : ℕ) : ℚ) with hdd
      set N : ℕ := wf.pcm.length / (32 * frame_ms) with hNN
      have hinv := vadFold_inv isSpeech (padding_ms / frame_ms) d hd N
      set fin := (List.range N).foldl (vadStep isSpeech (padding_ms / frame_ms) d)
        ⟨false, [], 0, []⟩ with hfin
      have hvoiced : ∀ q ∈ (if fin.triggered = true then
          fin.voiced ++ [(fin.start_t, ((N - 1 : ℕ) : ℚ) * d + d)] else fin.voiced),
          q.1 < q.2 := by
        by_cases htr : fin.triggered = true
        · rw [if_pos htr]
          intro q hq
          rcases List.mem_append.mp hq with hq | hq
          · exact hinv.1 q hq
          · rcases List.mem_singleton.mp hq with rfl
            obtain ⟨j, hj, hje⟩ := hinv.2.1 htr
            dsimp only
            rw [hje]
            have hjk : (j : ℚ) ≤ ((N - 1 : ℕ) : ℚ) := by
              exact_mod_cast Nat.le_sub_one_of_lt hj
            have hmul := mul_le_mul_of_nonneg_right hjk (le_of_lt hd)
            linarith
        · rw [if_neg htr]
          exact hinv.1
      injection hok with hok
      rw [← hok]
      exact vadTailMerge_nondeg _ _
        (fun q hq => hvoiced q (List.mem_of_mem_filter hq))
  · -- refine_segments_by_gaze
    intro obs fps segments cfg hfps hmin p hp
    have hδ := gazeDelta_pos fps cfg hfps
    unfold refine_segments_by_gaze at hp
    rcases segments with _ | ⟨s0, srest⟩
    · cases hp
    · dsimp only at hp
      have hkey : ∀ q ∈ ((s0 :: srest).enum.map
          (fun p => gazeRunSeg (obs p.1) cfg (gazeDelta fps cfg) p.2)).flatten,
          q.1 < q.2 := by
        intro q hq
        obtain ⟨i, seg, _, hqseg⟩ := refined_mem obs fps (s0 :: srest) cfg q hq
        have := (gazeRunSeg_inv (obs i) cfg (gazeDelta fps cfg) hδ seg q hqseg).2.2
        linarith
      unfold merge_close_segments at hp
      rcases hrc : ((s0 :: srest).enum.map
          (fun p => gazeRunSeg (obs p.1) cfg (gazeDelta fps cfg) p.2)).flatten
        with _ | ⟨r0, rrest⟩
      · rw [hrc] at hp
        cases hp
      · rw [hrc] at hp
        have hmem : ∀ q ∈ (r0 :: rrest), q.1 < q.2 := by
          intro q hq
          exact hkey q (by rw [hrc]; exact hq)
        exact mergeCloseLoop_nondeg cfg.merge_gap_s r0 rrest
          (hmem r0 (List.mem_cons_self _ _))
          (fun q hq => hmem q (List.mem_cons_of_mem _ hq)) p hp
  · -- detect_fillers
    intro words p1 p2 p3 p4 hwords p hp
    unfold detect_fillers at hp
    exact merge_intervals_nondeg _
      (fillerCuts_nondeg p1 p2 p3 p4 none words hwords (by rintro w ⟨⟩)) p hp

/-- C4 witness: a concrete filler cut from strictly-timed words is
nondegenerate. -/
theorem no_degenerate_amended_witness : (0 : ℚ) < 1/5 :=
  no_degenerate_amended.2.2.2 frenchWords (6/10) (9/10) (1/2) (35/100)
    (by decide) (0, 1/5) (by decide)

/-- C5 witness: a trivial aside (`"xxx"`, one second) between two takes of
`"aaa bbb ccc"` makes the A-B-A branch drop the restatement at index 2. -/
theorem aba_pattern_amended_witness :
    2 ∈ detect_repetition_segments id simEq [(0, 1), (1, 2), (2, 3)]
      ["aaa bbb ccc", "xxx", "aaa bbb ccc"] 3 (78/100) (45/100) :=
  (aba_pattern_amended id simEq [(0, 1), (1, 2), (2, 3)]
    ["aaa bbb ccc", "xxx", "aaa bbb ccc"] 3 (78/100) (45/100) 2
    rfl (le_refl 2) (by decide) (by decide) (by decide) (by decide)).1 (by decide)

/-- C7: on a 5-second track with the single silence `(1.0, 1.05)` and cut
threshold `0.25` s (the remaining parameters at their defaults),
`build_segments_from_silences` performs no split: the 0.05 s silence is below
the merge threshold, so the result is the single segment `[(0, 5)]`. -/
theorem silence_merge_example :
    build_segments_from_silences 5 [(1, 21/20)]
      (1/4) (18/100) (12/100) (14/100) (45/100) (16/100) = [(0, 5)] := by
  decide

/-- C8: `read_wav` returns the PCM data together with the sample rate exactly
when the WAV file is mono, 16 kHz, 16-bit (`sample_width = 2` bytes); in
every other case it raises (`Except.error`) instead of reinterpreting the
audio. -/
theorem read_wav_fail_fast (wf : WavFile) :
    (read_wav wf = Except.ok (wf.pcm, wf.sample_rate) ↔
      wf.num_channels = 1 ∧ wf.sample_rate = 16000 ∧ wf.sample_width = 2) ∧
    (¬(wf.num_channels = 1 ∧ wf.sample_rate = 16000 ∧ wf.sample_width = 2) →
      ∃ msg, read_wav wf = Except.error msg) := by
  unfold read_wav
  by_cases h : wf.num_channels ≠ 1 ∨ wf.sample_rate ≠ 16000 ∨ wf.sample_width ≠ 2
  · rw [if_pos h]
    constructor
    · constructor
      · intro hx; exact absurd hx (by simp)
      · intro hx
        rcases h with h | h | h <;> exact absurd (by tauto) h
    · intro _; exact ⟨_, rfl⟩
  · push_neg at h
    rw [if_neg]
    · constructor
      · constructor
        · intro _; exact ⟨h.1, h.2.1, h.2.2⟩
        · intro _; rfl
      · intro hx; exact absurd ⟨h.1, h.2.1, h.2.2⟩ hx
    · push_neg
      exact h

/-- C8 witness: a valid mono 16 kHz 16-bit file is read back as its PCM and
rate. -/
theorem read_wav_fail_fast_witness :
    read_wav ⟨1, 16000, 2, [0, 1, 2, 3]⟩ = Except.ok ([0, 1, 2, 3], 16000) :=
  (read_wav_fail_fast ⟨1, 16000, 2, [0, 1, 2, 3]⟩).1.mpr ⟨rfl, rfl, rfl⟩

end AutoEditor
